import Mathlib

/-!
# Verification of the Rust-Candles-Retriever core

A shallow embedding, in Lean 4, of the candle store, the backfill
retriever, the gap interpolator, the progress ledger and the web-server
resampling fallback of the Rust-Candles-Retriever repository, together
with theorems settling the specification claims about them.

Modelling conventions:
* `i64` values (timestamps, counters) are embedded as `Int`; the programs
  never approach the `i64` range so wrap-around is not modelled.
* `f64` values (prices, volumes) are embedded as `ℚ` (exact arithmetic);
  the cast `as i64` (truncation toward zero) is `f64toI64`.
* The SQLite `candlesticks` table is a `List Row`; `INSERT OR IGNORE`
  against the `UNIQUE(provider, symbol, timeframe, open_time)` index is
  `insertOrIgnore`; `INSERT OR REPLACE` on `timeframe_status` (whose
  primary key is `(provider, symbol, timeframe)`) is `update_progress` /
  `mark_complete`.
-/

namespace CandlesRetriever

/-- `utils::timeframe_to_interval` (utils.rs / gap_filler.rs): timeframe
tag to interval in milliseconds; unknown tags default to 5m. -/
def timeframe_to_interval (timeframe : String) : Int :=
  match timeframe with
  | "1m" => 60000
  | "3m" => 180000
  | "5m" => 300000
  | "15m" => 900000
  | "30m" => 1800000
  | "1h" => 3600000
  | "2h" => 7200000
  | "4h" => 14400000
  | "6h" => 21600000
  | "8h" => 28800000
  | "12h" => 43200000
  | "1d" => 86400000
  | "3d" => 259200000
  | "1w" => 604800000
  | "1M" => 2592000000
  | _ => 300000

/-- Decimal digit accumulation, the semantics of `str::parse::<i64>` on
the digit-only strings that timeframe tags contain (`none` on a
non-digit or on the empty string, as `parse` errors there). -/
def digitsToNat : List Char → Option Nat → Option Nat
  | [], acc => acc
  | c :: cs, acc =>
    if 48 ≤ c.toNat ∧ c.toNat ≤ 57 then
      digitsToNat cs (some ((acc.getD 0) * 10 + (c.toNat - 48)))
    else none

/-- `RealtimeManager::timeframe_to_seconds` (realtime.rs):
`tf[..len-1].parse::<i64>().unwrap_or(1)` times the unit of the last
character (`m`/`h`/`d`, anything else 60). -/
def timeframe_to_seconds (tf : String) : Int :=
  let cs := tf.toList
  let num : Int := ((digitsToNat cs.dropLast none).map Int.ofNat).getD 1
  match cs.getLast? with
  | some 'm' => num * 60
  | some 'h' => num * 3600
  | some 'd' => num * 86400
  | _ => 60

/-- The Rust cast `q as i64` on an `f64`: truncation toward zero. -/
def f64toI64 (q : ℚ) : Int :=
  if 0 ≤ q then ⌊q⌋ else ⌈q⌉

/-- One row of the `candlesticks` table (database.rs,
`SQL_CREATE_TABLE_CANDLESTICKS`). -/
structure Row where
  provider : String
  symbol : String
  timeframe : String
  open_time : Int
  open_ : ℚ
  high : ℚ
  low : ℚ
  close : ℚ
  volume : ℚ
  close_time : Int
  quote_asset_volume : ℚ
  number_of_trades : Int
  taker_buy_base_asset_volume : ℚ
  taker_buy_quote_asset_volume : ℚ
  interpolated : Bool
deriving Repr, DecidableEq

/-- Two rows collide on the `UNIQUE(provider, symbol, timeframe,
open_time)` index. -/
def Row.sameKey (a b : Row) : Bool :=
  a.provider == b.provider && a.symbol == b.symbol &&
    a.timeframe == b.timeframe && a.open_time == b.open_time

/-- A row belongs to the `(provider, symbol, timeframe)` series used in
the `WHERE` clauses of retriever.rs / gap_filler.rs queries. -/
def Row.keyMatch (r : Row) (p s tf : String) : Bool :=
  r.provider == p && r.symbol == s && r.timeframe == tf

/-- `INSERT OR IGNORE INTO candlesticks`: the row is appended unless a row
with the same unique key exists; the returned count is the number of
changed rows (0 or 1). -/
def insertOrIgnore (store : List Row) (r : Row) : List Row × Int :=
  if store.any (fun x => x.sameKey r) then (store, 0) else (store ++ [r], 1)

/-- One entry of the `binance::model::KlineSummary` batch returned by
`Market::get_klines`; numeric strings are embedded already parsed (the
`parse::<f64>().unwrap_or(0.0)` default concerns malformed strings only). -/
structure KlineSummary where
  open_time : Int
  open_ : ℚ
  high : ℚ
  low : ℚ
  close : ℚ
  volume : ℚ
  close_time : Int
  quote_asset_volume : ℚ
  number_of_trades : Int
  taker_buy_base_asset_volume : ℚ
  taker_buy_quote_asset_volume : ℚ
deriving Repr, DecidableEq

/-- The row built by `CandleRetriever::insert_batch` (retriever.rs) for
one kline: fields copied, `interpolated = 0`. -/
def mkBackfillRow (p s tf : String) (k : KlineSummary) : Row :=
  { provider := p, symbol := s, timeframe := tf
    open_time := k.open_time, open_ := k.open_, high := k.high, low := k.low
    close := k.close, volume := k.volume, close_time := k.close_time
    quote_asset_volume := k.quote_asset_volume
    number_of_trades := k.number_of_trades
    taker_buy_base_asset_volume := k.taker_buy_base_asset_volume
    taker_buy_quote_asset_volume := k.taker_buy_quote_asset_volume
    interpolated := false }

/-- `CandleRetriever::insert_batch` (retriever.rs): one transaction that
inserts every kline in order with `INSERT OR IGNORE`, counting rows
actually changed (the loop `if changes > 0 { inserted += 1 }`). -/
def insert_batch (p s tf : String) : List Row → List KlineSummary → List Row × Int
  | store, [] => (store, 0)
  | store, k :: ks =>
    let step := insertOrIgnore store (mkBackfillRow p s tf k)
    let rest := insert_batch p s tf step.1 ks
    (rest.1, step.2 + rest.2)

/-- A row with the same unique key as `r` is present. -/
def hasKey (store : List Row) (r : Row) : Bool :=
  store.any (fun x => x.sameKey r)

theorem Row.sameKey_self (r : Row) : r.sameKey r = true := by
  simp [Row.sameKey]

theorem hasKey_insertOrIgnore_self (store : List Row) (r : Row) :
    hasKey (insertOrIgnore store r).1 r = true := by
  unfold insertOrIgnore
  by_cases h : store.any (fun x => x.sameKey r) = true
  · rw [if_pos h]; exact h
  · rw [if_neg h]
    unfold hasKey
    simp [List.any_append, Row.sameKey_self]

theorem hasKey_mono (store : List Row) (extra : List Row) (r : Row)
    (h : hasKey store r = true) : hasKey (store ++ extra) r = true := by
  unfold hasKey at h ⊢
  simp only [List.any_append, Bool.or_eq_true]
  exact Or.inl h

/-- `insertOrIgnore` only ever appends. -/
theorem insertOrIgnore_append (store : List Row) (r : Row) :
    ∃ extra, (insertOrIgnore store r).1 = store ++ extra ∧
      ∀ x ∈ extra, x = r := by
  unfold insertOrIgnore
  by_cases h : store.any (fun x => x.sameKey r) = true
  · exact ⟨[], by simp [h]⟩
  · exact ⟨[r], by simp [h]⟩

/-- `insert_batch` only ever appends rows built from its input klines. -/
theorem insert_batch_append (p s tf : String) (klines : List KlineSummary) :
    ∀ store, ∃ extra, (insert_batch p s tf store klines).1 = store ++ extra ∧
      ∀ x ∈ extra, ∃ k ∈ klines, x = mkBackfillRow p s tf k := by
  induction klines with
  | nil => intro store; exact ⟨[], by simp [insert_batch]⟩
  | cons k ks ih =>
    intro store
    obtain ⟨e1, he1, he1mem⟩ := insertOrIgnore_append store (mkBackfillRow p s tf k)
    obtain ⟨e2, he2, he2mem⟩ := ih (insertOrIgnore store (mkBackfillRow p s tf k)).1
    refine ⟨e1 ++ e2, ?_, ?_⟩
    · show (insert_batch p s tf (insertOrIgnore store (mkBackfillRow p s tf k)).1 ks).1
        = store ++ (e1 ++ e2)
      rw [he2, he1, List.append_assoc]
    · intro x hx
      rcases List.mem_append.mp hx with hx1 | hx2
      · exact ⟨k, List.mem_cons_self k ks, he1mem x hx1⟩
      · obtain ⟨k', hk', hxk'⟩ := he2mem x hx2
        exact ⟨k', List.mem_cons_of_mem k hk', hxk'⟩

/-- After `insert_batch`, every kline of the batch has its key present. -/
theorem insert_batch_keys_present (p s tf : String) (klines : List KlineSummary) :
    ∀ store, ∀ k ∈ klines,
      hasKey (insert_batch p s tf store klines).1 (mkBackfillRow p s tf k) = true := by
  induction klines with
  | nil => intro store k hk; cases hk
  | cons k0 ks ih =>
    intro store k hk
    show hasKey (insert_batch p s tf (insertOrIgnore store (mkBackfillRow p s tf k0)).1 ks).1
      (mkBackfillRow p s tf k) = true
    rcases List.mem_cons.mp hk with hk0 | hks
    · subst hk0
      obtain ⟨e, he, -⟩ :=
        insert_batch_append p s tf ks (insertOrIgnore store (mkBackfillRow p s tf k)).1
      rw [he]
      exact hasKey_mono _ _ _ (hasKey_insertOrIgnore_self store (mkBackfillRow p s tf k))
    · exact ih (insertOrIgnore store (mkBackfillRow p s tf k0)).1 k hks

/-- Re-inserting a batch whose keys are all present is a no-op that counts
nothing. -/
theorem insert_batch_all_present (p s tf : String) (klines : List KlineSummary) :
    ∀ store, (∀ k ∈ klines, hasKey store (mkBackfillRow p s tf k) = true) →
      insert_batch p s tf store klines = (store, 0) := by
  induction klines with
  | nil => intro store _; simp [insert_batch]
  | cons k ks ih =>
    intro store hall
    have hk : hasKey store (mkBackfillRow p s tf k) = true :=
      hall k (List.mem_cons_self k ks)
    have hins : insertOrIgnore store (mkBackfillRow p s tf k) = (store, 0) := by
      unfold insertOrIgnore
      unfold hasKey at hk
      simp [hk]
    show ((insert_batch p s tf (insertOrIgnore store (mkBackfillRow p s tf k)).1 ks).1,
      (insertOrIgnore store (mkBackfillRow p s tf k)).2 +
        (insert_batch p s tf (insertOrIgnore store (mkBackfillRow p s tf k)).1 ks).2) = (store, 0)
    rw [hins]
    simp only
    rw [ih store (fun k' hk' => hall k' (List.mem_cons_of_mem k hk'))]
    simp

/-- One row of the `timeframe_status` table as the code that writes it
(timeframe_status.rs, main.rs) understands it: with the `is_complete`
column of the main.rs schema. -/
structure StatusRow where
  provider : String
  symbol : String
  timeframe : String
  oldest_candle_time : Option Int
  is_complete : Bool
  last_updated : Int
deriving Repr, DecidableEq

/-- A status row belongs to the `(provider, symbol, timeframe)` primary
key. -/
def StatusRow.keyMatch (r : StatusRow) (p s tf : String) : Bool :=
  r.provider == p && r.symbol == s && r.timeframe == tf

/-- The per-symbol SQLite database: the `candlesticks` table and the
`timeframe_status` (progress cursor) table. -/
structure DB where
  candlesticks : List Row
  timeframe_status : List StatusRow
deriving Repr, DecidableEq

/-- `SELECT oldest_candle_time FROM timeframe_status WHERE ...` — the
read half of the progress ledger (spec component D). -/
def ledger_read (db : DB) (p s tf : String) : Option Int :=
  match db.timeframe_status.find? (fun r => r.keyMatch p s tf) with
  | some r => r.oldest_candle_time
  | none => none

/-- `TimeframeStatus::update_progress` (timeframe_status.rs):
`INSERT OR REPLACE` of the key's status row with `is_complete = 0`. -/
def update_progress (db : DB) (p s tf : String) (oldest now : Int) : DB :=
  { db with
    timeframe_status :=
      db.timeframe_status.filter (fun r => !(r.keyMatch p s tf)) ++
        [⟨p, s, tf, some oldest, false, now⟩] }

/-- `TimeframeStatus::mark_complete` (timeframe_status.rs):
`INSERT OR REPLACE` of the key's status row with `is_complete = 1`. -/
def mark_complete (db : DB) (p s tf : String) (oldest : Option Int) (now : Int) : DB :=
  { db with
    timeframe_status :=
      db.timeframe_status.filter (fun r => !(r.keyMatch p s tf)) ++
        [⟨p, s, tf, oldest, true, now⟩] }

/-- Maximum of a list of timestamps, `none` on the empty list — the SQL
`MAX(open_time)` aggregate. -/
def maxOpenTime : List Int → Option Int
  | [] => none
  | t :: ts =>
    match maxOpenTime ts with
    | none => some t
    | some m => some (max t m)

/-- `TimeframeStatus::get_last_candle_time` (timeframe_status.rs):
`SELECT MAX(open_time) FROM candlesticks WHERE provider = ?1 AND
symbol = ?2 AND timeframe = ?3`. -/
def get_last_candle_time (db : DB) (p s tf : String) : Option Int :=
  maxOpenTime ((db.candlesticks.filter (fun r => r.keyMatch p s tf)).map Row.open_time)

/-- `CandleRetriever::determine_start_point` (retriever.rs): resume from
`get_last_candle_time` when data exists, else start from `now`. -/
def determine_start_point (db : DB) (p s tf : String) (now : Int) : Int :=
  match get_last_candle_time db p s tf with
  | some last_time => last_time
  | none => now

theorem maxOpenTime_eq_none {l : List Int} (h : maxOpenTime l = none) : l = [] := by
  cases l with
  | nil => rfl
  | cons t ts =>
    unfold maxOpenTime at h
    cases hm : maxOpenTime ts <;> simp [hm] at h

theorem maxOpenTime_mem {l : List Int} : ∀ {m : Int}, maxOpenTime l = some m → m ∈ l := by
  induction l with
  | nil => intro m h; cases h
  | cons t ts ih =>
    intro m h
    unfold maxOpenTime at h
    cases hm : maxOpenTime ts with
    | none =>
      rw [hm] at h
      simp only [Option.some.injEq] at h
      subst h
      exact List.mem_cons_self t ts
    | some m' =>
      rw [hm] at h
      simp only [Option.some.injEq] at h
      rcases max_choice t m' with hmx | hmx
      · rw [hmx] at h; subst h; exact List.mem_cons_self t ts
      · rw [hmx] at h; subst h; exact List.mem_cons_of_mem t (ih hm)

theorem maxOpenTime_le {l : List Int} : ∀ {m : Int}, maxOpenTime l = some m →
    ∀ x ∈ l, x ≤ m := by
  induction l with
  | nil => intro m h x hx; cases hx
  | cons t ts ih =>
    intro m h x hx
    unfold maxOpenTime at h
    cases hm : maxOpenTime ts with
    | none =>
      rw [hm] at h
      simp only [Option.some.injEq] at h
      have hts := maxOpenTime_eq_none hm
      subst hts
      rcases List.mem_cons.mp hx with hx0 | hx0
      · subst hx0; exact le_of_eq h
      · cases hx0
    | some m' =>
      rw [hm] at h
      simp only [Option.some.injEq] at h
      subst h
      rcases List.mem_cons.mp hx with hx0 | hx0
      · subst hx0; exact le_max_left x m'
      · exact le_trans (ih hm x hx0) (le_max_right t m')

/-- C1 (amended). `determine_start_point` resumes from the **largest**
stored `open_time` of the key (the newest stored candle, via the SQL
`MAX(open_time)` of `get_last_candle_time`) — not from the progress
cursor's `oldest_candle_time`; when the key has no stored candles it
returns the supplied wall-clock `now`. -/
theorem C1_determine_start_point_is_max (db : DB) (p s tf : String) (now : Int) :
    ((∀ r ∈ db.candlesticks, r.keyMatch p s tf = false) →
        determine_start_point db p s tf now = now)
    ∧ (∀ r ∈ db.candlesticks, r.keyMatch p s tf = true →
        r.open_time ≤ determine_start_point db p s tf now)
    ∧ (∀ r0 ∈ db.candlesticks, r0.keyMatch p s tf = true →
        ∃ r ∈ db.candlesticks, r.keyMatch p s tf = true ∧
          determine_start_point db p s tf now = r.open_time) := by
  refine ⟨?_, ?_, ?_⟩
  · intro hnone
    have hfil : db.candlesticks.filter (fun r => r.keyMatch p s tf) = [] := by
      rw [List.filter_eq_nil_iff]
      intro r hr
      simp [hnone r hr]
    unfold determine_start_point get_last_candle_time
    rw [hfil]
    rfl
  · intro r hr hkey
    have hmem : r.open_time ∈
        (db.candlesticks.filter (fun r => r.keyMatch p s tf)).map Row.open_time :=
      List.mem_map_of_mem Row.open_time (List.mem_filter.mpr ⟨hr, hkey⟩)
    unfold determine_start_point get_last_candle_time
    cases hm : maxOpenTime
        ((db.candlesticks.filter (fun r => r.keyMatch p s tf)).map Row.open_time) with
    | none =>
      have := maxOpenTime_eq_none hm
      rw [this] at hmem
      cases hmem
    | some m =>
      exact maxOpenTime_le hm r.open_time hmem
  · intro r0 hr0 hkey0
    have hmem0 : r0.open_time ∈
        (db.candlesticks.filter (fun r => r.keyMatch p s tf)).map Row.open_time :=
      List.mem_map_of_mem Row.open_time (List.mem_filter.mpr ⟨hr0, hkey0⟩)
    cases hm : maxOpenTime
        ((db.candlesticks.filter (fun r => r.keyMatch p s tf)).map Row.open_time) with
    | none =>
      have := maxOpenTime_eq_none hm
      rw [this] at hmem0
      cases hmem0
    | some m =>
      obtain ⟨r, hrfil, hrt⟩ := List.mem_map.mp (maxOpenTime_mem hm)
      obtain ⟨hrmem, hrkey⟩ := List.mem_filter.mp hrfil
      refine ⟨r, hrmem, hrkey, ?_⟩
      unfold determine_start_point get_last_candle_time
      rw [hm, hrt]

/-- Rows with only the identifying fields populated, for concrete
counterexample stores. -/
def plainRow (p s tf : String) (t ct : Int) : Row :=
  { provider := p, symbol := s, timeframe := tf, open_time := t
    open_ := 0, high := 0, low := 0, close := 0, volume := 0
    close_time := ct, quote_asset_volume := 0, number_of_trades := 0
    taker_buy_base_asset_volume := 0, taker_buy_quote_asset_volume := 0
    interpolated := false }

/-- A store whose progress cursor (oldest reached = 100) disagrees with
its newest stored candle (open_time 200). -/
def dbResume : DB :=
  { candlesticks :=
      [plainRow "binance" "BTCUSDT" "1h" 100 3699999,
       plainRow "binance" "BTCUSDT" "1h" 200 3799999]
    timeframe_status := [⟨"binance", "BTCUSDT", "1h", some 100, false, 0⟩] }

/-- C1 (counterexample). On `dbResume` the progress cursor's
`oldest_candle_time` is 100, but `determine_start_point` returns 200,
the largest stored `open_time`; so backfill does not walk backward from
the cursor's oldest value as the claim states. -/
theorem C1_counterexample :
    determine_start_point dbResume "binance" "BTCUSDT" "1h" 999999 = 200
    ∧ ledger_read dbResume "binance" "BTCUSDT" "1h" = some 100
    ∧ ((200 : Int) = 100 → False) := by
  refine ⟨by decide, by decide, by decide⟩

/-- Column list of the `timeframe_status` table created by
`DatabaseManager::init_schema` (database.rs): no `is_complete` column. -/
def init_schema_status_columns : List String :=
  ["provider", "symbol", "timeframe", "oldest_candle_time", "last_updated"]

/-- Column list of the `timeframe_status` table created by
`setup_database` (main.rs): includes `is_complete`. -/
def main_rs_status_columns : List String :=
  ["provider", "symbol", "timeframe", "oldest_candle_time", "is_complete",
   "last_updated"]

/-- Columns named by the `INSERT OR REPLACE INTO timeframe_status`
statements of `TimeframeStatus::update_progress` and
`TimeframeStatus::mark_complete` (timeframe_status.rs). -/
def update_progress_insert_columns : List String :=
  ["provider", "symbol", "timeframe", "oldest_candle_time", "is_complete",
   "last_updated"]

/-- SQLite executes an INSERT only when every named column exists in the
table; otherwise it errors with "table has no column named ...". -/
def insert_columns_ok (schema insertCols : List String) : Bool :=
  insertCols.all (fun c => schema.contains c)

/-- C7 (code bug). On a handle opened through `DatabaseManager::new`
(database.rs `init_schema`), the `timeframe_status` table has no
`is_complete` column, yet `update_progress` and `mark_complete`
(timeframe_status.rs) insert into that column — so every progress-ledger
write on such a handle fails with an SQL error instead of succeeding.
The same insert succeeds against the `setup_database` schema of main.rs,
whose table does declare `is_complete`: the two schemas contradict each
other. -/
theorem C7_ledger_write_fails_on_init_schema :
    insert_columns_ok init_schema_status_columns update_progress_insert_columns = false
    ∧ insert_columns_ok main_rs_status_columns update_progress_insert_columns = true := by
  refine ⟨by decide, by decide⟩

/-- `RealtimeCandle` (realtime.rs): `time` is the exchange kline start
time divided by 1000, i.e. epoch **seconds**. -/
structure RealtimeCandle where
  time : Int
  open_ : ℚ
  high : ℚ
  low : ℚ
  close : ℚ
  volume : ℚ
  is_closed : Bool
deriving Repr, DecidableEq

/-- The row inserted by `RealtimeManager::save_completed_candle`
(realtime.rs): `open_time = candle.time` (seconds),
`close_time = candle.time + timeframe_to_seconds(tf) - 1`, the fields the
websocket does not carry set to zero, `interpolated = 0`. -/
def save_completed_candle_row (symbol tf : String) (c : RealtimeCandle) : Row :=
  { provider := "binance", symbol := symbol, timeframe := tf
    open_time := c.time, open_ := c.open_, high := c.high, low := c.low
    close := c.close, volume := c.volume
    close_time := c.time + timeframe_to_seconds tf - 1
    quote_asset_volume := 0, number_of_trades := 0
    taker_buy_base_asset_volume := 0, taker_buy_quote_asset_volume := 0
    interpolated := false }

/-- C8. `CandleRetriever::insert_batch` is idempotent: replaying the same
batch on the store it produced changes nothing and reports 0 insertions,
because `INSERT OR IGNORE` silently skips every existing
`(provider, symbol, timeframe, open_time)` key without counting it. -/
theorem C8_insert_batch_idempotent (store : List Row) (p s tf : String)
    (klines : List KlineSummary) :
    insert_batch p s tf (insert_batch p s tf store klines).1 klines
      = ((insert_batch p s tf store klines).1, 0) :=
  insert_batch_all_present p s tf klines (insert_batch p s tf store klines).1
    (fun k hk => insert_batch_keys_present p s tf klines store k hk)

/-- The row cursor type loaded by `GapFiller::fetch_candles_in_range`
(gap_filler.rs, struct `Candle`). -/
structure Candle where
  open_time : Int
  open_ : ℚ
  high : ℚ
  low : ℚ
  close : ℚ
  volume : ℚ
  close_time : Int
  quote_asset_volume : ℚ
  number_of_trades : Int
  taker_buy_base_asset_volume : ℚ
  taker_buy_quote_asset_volume : ℚ
deriving Repr, DecidableEq

/-- The SELECT column list of `fetch_candles_in_range`. -/
def Row.toCandle (r : Row) : Candle :=
  { open_time := r.open_time, open_ := r.open_, high := r.high, low := r.low
    close := r.close, volume := r.volume, close_time := r.close_time
    quote_asset_volume := r.quote_asset_volume
    number_of_trades := r.number_of_trades
    taker_buy_base_asset_volume := r.taker_buy_base_asset_volume
    taker_buy_quote_asset_volume := r.taker_buy_quote_asset_volume }

/-- The ordering used by `ORDER BY open_time ASC`. -/
def candleLE (x y : Candle) : Prop := x.open_time ≤ y.open_time

instance : DecidableRel candleLE := fun x y => Int.decLe x.open_time y.open_time

instance : IsTotal Candle candleLE := ⟨fun x y => le_total x.open_time y.open_time⟩

instance : IsTrans Candle candleLE := ⟨fun _ _ _ h1 h2 => le_trans h1 h2⟩

/-- The rows selected by the gap filler's WHERE clause: the key's rows
with `open_time` in `[start_time, end_time]`. -/
def windowRows (db : DB) (p s tf : String) (start_time end_time : Int) : List Row :=
  db.candlesticks.filter
    (fun r => r.keyMatch p s tf && decide (start_time ≤ r.open_time) &&
      decide (r.open_time ≤ end_time))

/-- The key's stored open_times inside the window — the quantity the
adjacency invariant speaks about. -/
def keyOpenTimesIn (db : DB) (p s tf : String) (start_time end_time : Int) : List Int :=
  (windowRows db p s tf start_time end_time).map Row.open_time

/-- `GapFiller::fetch_candles_in_range` (gap_filler.rs): all candles of
the key with `open_time` in `[start_time, end_time]`, ordered by
`open_time` ascending. -/
def fetch_candles_in_range (db : DB) (p s tf : String)
    (start_time end_time : Int) : List Candle :=
  List.insertionSort candleLE
    ((windowRows db p s tf start_time end_time).map Row.toCandle)

/-- Round to the nearest integer, ties to even — the integer core of
IEEE round-to-nearest. -/
def roundHalfEven (q : ℚ) : ℤ :=
  if q - (⌊q⌋ : ℚ) < 1/2 then ⌊q⌋
  else if 1/2 < q - (⌊q⌋ : ℚ) then ⌊q⌋ + 1
  else if ⌊q⌋ % 2 = 0 then ⌊q⌋ else ⌊q⌋ + 1

/-- IEEE binary64 rounding (round to nearest, ties to even) of an exact
real value: scale the magnitude into `[2^52, 2^53)`, round the 53-bit
significand half-to-even, scale back. This models the normal range
(no overflow, underflow or NaN), which covers every value the gap
filler's arithmetic produces. -/
def f64round (q : ℚ) : ℚ :=
  if q = 0 then 0
  else if 0 < q then
    (roundHalfEven (q * 2 ^ (52 - Int.log 2 q)) : ℚ) * 2 ^ (Int.log 2 q - 52)
  else
    -((roundHalfEven (-q * 2 ^ (52 - Int.log 2 (-q))) : ℚ) * 2 ^ (Int.log 2 (-q) - 52))

/-- The Rust `as f64` cast of an `i64`. -/
def f64ofInt (z : Int) : ℚ := f64round (z : ℚ)

/-- `f64` multiplication: exact product, then one IEEE rounding. -/
def f64mul (x y : ℚ) : ℚ := f64round (x * y)

/-- `f64` division: exact quotient, then one IEEE rounding. -/
def f64div (x y : ℚ) : ℚ := f64round (x / y)

/-- `f64` addition: exact sum, then one IEEE rounding. -/
def f64add (x y : ℚ) : ℚ := f64round (x + y)

/-- `f64` subtraction: exact difference, then one IEEE rounding. -/
def f64sub (x y : ℚ) : ℚ := f64round (x - y)

/-- `GapFiller::interpolate_candle` (gap_filler.rs): linear interpolation
`A + (B - A) * ratio` of every field, each `f64` operation rounding per
IEEE; `open_time` and `number_of_trades` go through the `as i64` cast;
`close_time = open_time + interval - 1` in `i64`. -/
def interpolate_candle (current next : Candle) (ratio : ℚ) (interval : Int) : Candle :=
  let open_time := current.open_time +
    f64toI64 (f64mul (f64ofInt (next.open_time - current.open_time)) ratio)
  { open_time := open_time
    open_ := f64add current.open_ (f64mul (f64sub next.open_ current.open_) ratio)
    high := f64add current.high (f64mul (f64sub next.high current.high) ratio)
    low := f64add current.low (f64mul (f64sub next.low current.low) ratio)
    close := f64add current.close (f64mul (f64sub next.close current.close) ratio)
    volume := f64add current.volume (f64mul (f64sub next.volume current.volume) ratio)
    close_time := open_time + interval - 1
    quote_asset_volume := f64add current.quote_asset_volume
      (f64mul (f64sub next.quote_asset_volume current.quote_asset_volume) ratio)
    number_of_trades := f64toI64 (f64add (f64ofInt current.number_of_trades)
      (f64mul (f64sub (f64ofInt next.number_of_trades) (f64ofInt current.number_of_trades))
        ratio))
    taker_buy_base_asset_volume := f64add current.taker_buy_base_asset_volume
      (f64mul (f64sub next.taker_buy_base_asset_volume current.taker_buy_base_asset_volume)
        ratio)
    taker_buy_quote_asset_volume := f64add current.taker_buy_quote_asset_volume
      (f64mul (f64sub next.taker_buy_quote_asset_volume current.taker_buy_quote_asset_volume)
        ratio) }

/-- The synthetic candles emitted for one consecutive pair in
`fill_gaps_in_range`: when `time_diff > interval`, one candle per
`j = 1 ..= missing_candles` at the `f64` ratio
`j as f64 / (missing_candles + 1) as f64` (`j` below runs from 0, so
the loop index is `j + 1`). -/
def gapRowsFor (interval : Int) (current next : Candle) : List Candle :=
  let time_diff := next.open_time - current.open_time
  if time_diff > interval then
    let missing_candles := time_diff.tdiv interval - 1
    (List.range missing_candles.toNat).map
      (fun (j : ℕ) => interpolate_candle current next
        (f64div (f64ofInt ((j : Int) + 1)) (f64ofInt (missing_candles + 1))) interval)
  else []

/-- The sliding window `for i in 0..candles.len() - 1` of
`fill_gaps_in_range`, collecting the synthetic candles of every
consecutive pair in order. -/
def gapRowsAll (interval : Int) : List Candle → List Candle
  | current :: next :: rest =>
    gapRowsFor interval current next ++ gapRowsAll interval (next :: rest)
  | _ => []

/-- The row inserted for a synthetic candle: the candle's fields under
the gap filler's key, with the given `interpolated` marker. -/
def candleToRow (p s tf : String) (interp : Bool) (c : Candle) : Row :=
  { provider := p, symbol := s, timeframe := tf
    open_time := c.open_time, open_ := c.open_, high := c.high, low := c.low
    close := c.close, volume := c.volume, close_time := c.close_time
    quote_asset_volume := c.quote_asset_volume
    number_of_trades := c.number_of_trades
    taker_buy_base_asset_volume := c.taker_buy_base_asset_volume
    taker_buy_quote_asset_volume := c.taker_buy_quote_asset_volume
    interpolated := interp }

/-- The insert loop of `fill_gaps_in_range`: `INSERT OR IGNORE` each
synthetic row with `interpolated = 1`, incrementing `total_filled` on
every executed statement (the source does not look at `changes`). -/
def insertInterpolated (p s tf : String) : DB → List Candle → DB × Int
  | db, [] => (db, 0)
  | db, c :: cs =>
    let db1 : DB :=
      { db with candlesticks :=
          (insertOrIgnore db.candlesticks (candleToRow p s tf true c)).1 }
    let rest := insertInterpolated p s tf db1 cs
    (rest.1, 1 + rest.2)

/-- `GapFiller::fill_gaps_in_range` (gap_filler.rs). Returns the new
store state and `total_filled`. -/
def fill_gaps_in_range (db : DB) (p s tf : String)
    (start_time end_time : Int) : DB × Int :=
  let interval := timeframe_to_interval tf
  let candles := fetch_candles_in_range db p s tf start_time end_time
  if candles.length < 2 then (db, 0)
  else insertInterpolated p s tf db (gapRowsAll interval candles)

/-- The sliding window of `count_gaps_in_range`, summing
`(time_diff / interval) - 1` over the pairs where `time_diff > interval`. -/
def gapCountAll (interval : Int) : List Candle → Int
  | current :: next :: rest =>
    (if next.open_time - current.open_time > interval
      then (next.open_time - current.open_time).tdiv interval - 1
      else 0) + gapCountAll interval (next :: rest)
  | _ => 0

/-- `GapFiller::count_gaps_in_range` (gap_filler.rs): the same scan
without writes, summing `(time_diff / interval) - 1` over gapped pairs. -/
def count_gaps_in_range (db : DB) (p s tf : String)
    (start_time end_time : Int) : Int :=
  let interval := timeframe_to_interval tf
  let candles := fetch_candles_in_range db p s tf start_time end_time
  if candles.length < 2 then 0
  else gapCountAll interval candles

theorem timeframe_to_interval_pos (tf : String) : 0 < timeframe_to_interval tf := by
  unfold timeframe_to_interval
  repeat' split
  all_goals decide

/-- In a gapped pair the missing-candle count is nonnegative. -/
theorem missing_candles_nonneg {interval d : Int} (hI : 0 < interval)
    (hgap : d > interval) : 0 ≤ d.tdiv interval - 1 := by
  have hd : (0 : Int) ≤ d := le_of_lt (lt_trans hI hgap)
  rw [Int.tdiv_eq_ediv hd (le_of_lt hI)]
  have h1 : (1 : Int) ≤ d / interval := by
    rw [Int.le_ediv_iff_mul_le hI]
    simpa using hgap.le
  omega

theorem gapRowsFor_length {interval : Int} (hI : 0 < interval)
    (current next : Candle) :
    ((gapRowsFor interval current next).length : Int)
      = (if next.open_time - current.open_time > interval
          then (next.open_time - current.open_time).tdiv interval - 1
          else 0) := by
  unfold gapRowsFor
  by_cases h : next.open_time - current.open_time > interval
  · rw [if_pos h, if_pos h]
    rw [List.length_map, List.length_range]
    exact Int.toNat_of_nonneg (missing_candles_nonneg hI h)
  · rw [if_neg h, if_neg h]
    rfl

theorem gapRowsAll_length {interval : Int} (hI : 0 < interval) :
    ∀ cs : List Candle, ((gapRowsAll interval cs).length : Int) = gapCountAll interval cs := by
  intro cs
  induction cs with
  | nil => rfl
  | cons c cs ih =>
    cases cs with
    | nil => rfl
    | cons n rest =>
      show ((gapRowsFor interval c n ++ gapRowsAll interval (n :: rest)).length : Int)
        = _ + gapCountAll interval (n :: rest)
      rw [List.length_append]
      push_cast
      rw [gapRowsFor_length hI c n, ih]

theorem insertInterpolated_count (p s tf : String) :
    ∀ (cs : List Candle) (db : DB),
      (insertInterpolated p s tf db cs).2 = (cs.length : Int) := by
  intro cs
  induction cs with
  | nil => intro db; rfl
  | cons c cs ih =>
    intro db
    show 1 + (insertInterpolated p s tf _ cs).2 = ((c :: cs).length : Int)
    rw [ih]
    simp [add_comm]

/-- C10. `count_gaps_in_range` computes exactly the `total_filled` that
`fill_gaps_in_range` returns on the same store and window: both scan the
same pre-insertion candle list, and the fill loop counts every attempted
`INSERT OR IGNORE` (it never inspects the changed-row count), so the
returned fill count is the scan's gap total even when a synthetic key
already exists and the insert itself is ignored. -/
theorem C10_count_gaps_eq_fill_count (db : DB) (p s tf : String)
    (start_time end_time : Int) :
    count_gaps_in_range db p s tf start_time end_time
      = (fill_gaps_in_range db p s tf start_time end_time).2 := by
  unfold count_gaps_in_range fill_gaps_in_range
  by_cases h : (fetch_candles_in_range db p s tf start_time end_time).length < 2
  · rw [if_pos h, if_pos h]
  · rw [if_neg h, if_neg h]
    rw [insertInterpolated_count p s tf _ db,
      gapRowsAll_length (timeframe_to_interval_pos tf)]

theorem f64toI64_intCast (z : Int) : f64toI64 ((z : ℚ)) = z := by
  unfold f64toI64
  by_cases h : (0 : ℚ) ≤ (z : ℚ)
  · rw [if_pos h, Int.floor_intCast]
  · rw [if_neg h, Int.ceil_intCast]

theorem roundHalfEven_intCast (z : ℤ) : roundHalfEven ((z : ℚ)) = z := by
  unfold roundHalfEven
  rw [Int.floor_intCast, sub_self]
  norm_num

theorem f64round_zero : f64round 0 = 0 := by
  unfold f64round
  rw [if_pos rfl]

/-- A positive value whose scaled significand is already an integer is a
fixed point of the rounding. -/
theorem f64round_fix {q : ℚ} (hq : 0 < q) {z : ℤ}
    (hz : q * 2 ^ (52 - Int.log 2 q) = (z : ℚ)) : f64round q = q := by
  unfold f64round
  rw [if_neg hq.ne', if_pos hq, hz, roundHalfEven_intCast, ← hz, mul_assoc,
    ← zpow_add₀ (two_ne_zero : (2:ℚ) ≠ 0)]
  have hexp : (52 - Int.log 2 q) + (Int.log 2 q - 52) = 0 := by ring
  rw [hexp, zpow_zero, mul_one]

theorem int_log_nat_mul_zpow {n : ℕ} (hn : 0 < n) (t : ℤ) :
    Int.log 2 ((n : ℚ) * 2 ^ t) = (Nat.log 2 n : ℤ) + t := by
  have hq : (0 : ℚ) < (n : ℚ) * 2 ^ t := by positivity
  have hlow : ((2:ℕ) : ℚ) ^ ((Nat.log 2 n : ℤ) + t) ≤ (n : ℚ) * 2 ^ t := by
    push_cast
    rw [zpow_add₀ (two_ne_zero : (2:ℚ) ≠ 0)]
    refine mul_le_mul_of_nonneg_right ?_ (by positivity)
    rw [zpow_natCast]
    exact_mod_cast Nat.pow_log_le_self 2 hn.ne'
  have hhigh : (n : ℚ) * 2 ^ t < ((2:ℕ) : ℚ) ^ ((Nat.log 2 n : ℤ) + t + 1) := by
    push_cast
    have hre : ((Nat.log 2 n : ℤ) + t + 1) = ((Nat.log 2 n + 1 : ℕ) : ℤ) + t := by
      push_cast; ring
    rw [hre, zpow_add₀ (two_ne_zero : (2:ℚ) ≠ 0)]
    refine mul_lt_mul_of_pos_right ?_ (by positivity)
    rw [zpow_natCast]
    exact_mod_cast Nat.lt_pow_succ_log_self one_lt_two n
  have h1 : (Nat.log 2 n : ℤ) + t ≤ Int.log 2 ((n : ℚ) * 2 ^ t) :=
    (Int.zpow_le_iff_le_log one_lt_two hq).mp hlow
  have h2 : Int.log 2 ((n : ℚ) * 2 ^ t) < (Nat.log 2 n : ℤ) + t + 1 :=
    (Int.lt_zpow_iff_log_lt one_lt_two hq).mp hhigh
  omega

/-- Every dyadic rational with a significand below `2^53` is exactly
representable: the rounding fixes it. -/
theorem f64round_nat_mul_zpow {n : ℕ} (hn : n < 2 ^ 53) (t : ℤ) :
    f64round ((n : ℚ) * 2 ^ t) = (n : ℚ) * 2 ^ t := by
  rcases Nat.eq_zero_or_pos n with h0 | hpos
  · subst h0
    simp [f64round_zero]
  · have hlog : Int.log 2 ((n : ℚ) * 2 ^ t) = (Nat.log 2 n : ℤ) + t :=
      int_log_nat_mul_zpow hpos t
    have hL : Nat.log 2 n ≤ 52 := by
      by_contra hcon
      push_neg at hcon
      have h2 : (2:ℕ) ^ 53 ≤ 2 ^ Nat.log 2 n := Nat.pow_le_pow_right (by norm_num) (by omega)
      have h3 := Nat.pow_log_le_self 2 hpos.ne'
      exact absurd (lt_of_le_of_lt (le_trans h2 h3) hn) (lt_irrefl _)
    refine f64round_fix (by positivity) (z := ((n * 2 ^ (52 - Nat.log 2 n) : ℕ) : ℤ)) ?_
    rw [hlog]
    have hexp : t + ((52 : ℤ) - ((Nat.log 2 n : ℤ) + t)) = (52 : ℤ) - (Nat.log 2 n : ℤ) := by
      ring
    rw [mul_assoc, ← zpow_add₀ (two_ne_zero : (2:ℚ) ≠ 0), hexp]
    have h52 : ((52 : ℤ) - (Nat.log 2 n : ℤ)) = ((52 - Nat.log 2 n : ℕ) : ℤ) := by omega
    rw [h52, zpow_natCast]
    push_cast
    ring

theorem f64round_intCast_small {z : ℤ} (h0 : 0 ≤ z) (h1 : z < 2 ^ 53) :
    f64round ((z : ℚ)) = (z : ℚ) := by
  obtain ⟨n, rfl⟩ := Int.eq_ofNat_of_zero_le h0
  have hn : n < 2 ^ 53 := by exact_mod_cast h1
  have h := f64round_nat_mul_zpow hn 0
  rw [zpow_zero, mul_one] at h
  exact_mod_cast h

/-- The `as f64` cast of an `i64` in `[0, 2^53)` is exact. -/
theorem f64ofInt_small {z : ℤ} (h0 : 0 ≤ z) (h1 : z < 2 ^ 53) :
    f64ofInt z = (z : ℚ) :=
  f64round_intCast_small h0 h1

theorem f64round_nat_div_pow2 {a : ℕ} (ha : a < 2 ^ 53) (k : ℕ) :
    f64round ((a : ℚ) / 2 ^ k) = (a : ℚ) / 2 ^ k := by
  have h := f64round_nat_mul_zpow ha (-(k : ℤ))
  rw [zpow_neg, zpow_natCast] at h
  rw [div_eq_mul_inv]
  exact h

/-- When the pair distance is `interval * 2^k` (and exactly representable
in `f64`), the ratio `(j+1) / (missing+1)` is a dyadic rational and both
`f64` operations are exact, so `(d as f64 * ratio) as i64` lands exactly
on `(j + 1) * interval`. -/
theorem f64toI64_ratio_pow2 {I d : Int} (hI : 0 < I) {k : ℕ}
    (hd : d = I * 2 ^ k) (hgap : d > I) (hbound : d < 2 ^ 53) (j : ℕ)
    (hj : (j : ℤ) < d.tdiv I - 1) :
    f64toI64 (f64mul (f64ofInt d)
        (f64div (f64ofInt ((j : ℤ) + 1)) (f64ofInt (d.tdiv I - 1 + 1))))
      = ((j : ℤ) + 1) * I := by
  have htd : d.tdiv I = 2 ^ k := by
    rw [hd, Int.mul_tdiv_cancel_left _ hI.ne']
  have hpk : ((2:ℤ) ^ k) ≤ d := by
    rw [hd]
    nlinarith [pow_pos (by norm_num : (0:ℤ) < 2) k]
  have hk53 : (2:ℤ) ^ k < 2 ^ 53 := lt_of_le_of_lt hpk hbound
  have hjk : (j : ℤ) + 1 < 2 ^ k := by
    rw [htd] at hj
    omega
  have hd0 : 0 < d := lt_trans hI hgap
  have hfd : f64ofInt d = (d : ℚ) := f64ofInt_small hd0.le hbound
  have hfj : f64ofInt ((j : ℤ) + 1) = (((j : ℤ) + 1 : ℤ) : ℚ) :=
    f64ofInt_small (by positivity) (by omega)
  have hfm : f64ofInt (d.tdiv I - 1 + 1) = (((2:ℤ) ^ k : ℤ) : ℚ) := by
    have h21 : d.tdiv I - 1 + 1 = (2:ℤ) ^ k := by rw [htd]; ring
    rw [h21]
    exact f64ofInt_small (by positivity) (by omega)
  have hdivq : (((j : ℤ) + 1 : ℤ) : ℚ) / (((2:ℤ) ^ k : ℤ) : ℚ)
      = ((j + 1 : ℕ) : ℚ) / 2 ^ k := by
    push_cast
    ring
  have hfdiv : f64div (f64ofInt ((j : ℤ) + 1)) (f64ofInt (d.tdiv I - 1 + 1))
      = ((j + 1 : ℕ) : ℚ) / 2 ^ k := by
    rw [hfj, hfm]
    unfold f64div
    rw [hdivq]
    exact f64round_nat_div_pow2 (by push_cast; omega) k
  rw [hfd, hfdiv]
  unfold f64mul
  have hqe : (d : ℚ) * (((j + 1 : ℕ) : ℚ) / 2 ^ k) = ((((j : ℤ) + 1) * I : ℤ) : ℚ) := by
    rw [hd]
    have hpk0 : ((2:ℚ) ^ k) ≠ 0 := by positivity
    push_cast
    field_simp
    ring
  rw [hqe]
  have hfix : f64round ((((j : ℤ) + 1) * I : ℤ) : ℚ) = ((((j : ℤ) + 1) * I : ℤ) : ℚ) := by
    refine f64round_intCast_small (by positivity) ?_
    have hstep : ((j : ℤ) + 1) * I < 2 ^ k * I := by nlinarith
    nlinarith
  rw [hfix, f64toI64_intCast]

/-- The gapped branch of `gapRowsFor`, written out. -/
theorem gapRowsFor_pos {interval : Int} {current next : Candle}
    (hgap : next.open_time - current.open_time > interval) :
    gapRowsFor interval current next
      = (List.range ((next.open_time - current.open_time).tdiv interval - 1).toNat).map
          (fun (j : ℕ) => interpolate_candle current next
            (f64div (f64ofInt ((j : Int) + 1))
              (f64ofInt ((next.open_time - current.open_time).tdiv interval - 1 + 1)))
            interval) := by
  simp only [gapRowsFor]
  rw [if_pos hgap]

/-- On a gap of `interval * 2^k` the emitted open_times are exactly
`current.open_time + (j+1) * interval` for `j = 0 .. missing - 1`: for a
power-of-two candle count every `f64` step is exact. -/
theorem gapRowsFor_open_times_pow2 {interval : Int} (hI : 0 < interval)
    {current next : Candle} {k : ℕ}
    (hd : next.open_time - current.open_time = interval * 2 ^ k)
    (hgap : next.open_time - current.open_time > interval)
    (hbound : next.open_time - current.open_time < 2 ^ 53) :
    (gapRowsFor interval current next).map Candle.open_time
      = (List.range ((next.open_time - current.open_time).tdiv interval - 1).toNat).map
          (fun (j : ℕ) => current.open_time + ((j : ℤ) + 1) * interval) := by
  rw [gapRowsFor_pos hgap, List.map_map]
  refine List.map_congr_left ?_
  intro j hj
  have hmnn : 0 ≤ (next.open_time - current.open_time).tdiv interval - 1 :=
    missing_candles_nonneg hI hgap
  have hjZ : (j : ℤ) < (next.open_time - current.open_time).tdiv interval - 1 := by
    have hjlt := List.mem_range.mp hj
    have := Int.toNat_of_nonneg hmnn
    omega
  show (interpolate_candle current next _ interval).open_time = _
  unfold interpolate_candle
  simp only
  rw [f64toI64_ratio_pow2 hI hd hgap hbound j hjZ]

/-- After `insertInterpolated`, the store is the old store plus rows
marked `interpolated = true`, and the status table is untouched. -/
theorem insertInterpolated_decomp (p s tf : String) :
    ∀ (cs : List Candle) (db : DB),
      (∃ extra, (insertInterpolated p s tf db cs).1.candlesticks
          = db.candlesticks ++ extra
        ∧ ∀ x ∈ extra, ∃ c ∈ cs, x = candleToRow p s tf true c)
      ∧ (insertInterpolated p s tf db cs).1.timeframe_status = db.timeframe_status := by
  intro cs
  induction cs with
  | nil => intro db; exact ⟨⟨[], by simp [insertInterpolated]⟩, rfl⟩
  | cons c cs ih =>
    intro db
    obtain ⟨e1, he1, he1mem⟩ := insertOrIgnore_append db.candlesticks (candleToRow p s tf true c)
    obtain ⟨⟨e2, he2, he2mem⟩, hstat⟩ := ih
      { db with candlesticks := (insertOrIgnore db.candlesticks (candleToRow p s tf true c)).1 }
    constructor
    · refine ⟨e1 ++ e2, ?_, ?_⟩
      · show (insertInterpolated p s tf _ cs).1.candlesticks = _
        rw [he2]
        simp only
        rw [he1, List.append_assoc]
      · intro x hx
        rcases List.mem_append.mp hx with hx1 | hx2
        · exact ⟨c, List.mem_cons_self c cs, he1mem x hx1⟩
        · obtain ⟨c', hc', hxc'⟩ := he2mem x hx2
          exact ⟨c', List.mem_cons_of_mem c hc', hxc'⟩
    · exact hstat

/-- Any row present after `fill_gaps_in_range` was already stored or is a
synthetic row marked `interpolated = true`. -/
theorem fill_gaps_new_rows_interpolated (db : DB) (p s tf : String) (a b : Int) :
    ∀ r ∈ (fill_gaps_in_range db p s tf a b).1.candlesticks,
      r ∈ db.candlesticks ∨ r.interpolated = true := by
  intro r hr
  unfold fill_gaps_in_range at hr
  by_cases h : (fetch_candles_in_range db p s tf a b).length < 2
  · rw [if_pos h] at hr
    exact Or.inl hr
  · rw [if_neg h] at hr
    obtain ⟨⟨extra, hex, hexmem⟩, -⟩ := insertInterpolated_decomp p s tf
      (gapRowsAll (timeframe_to_interval tf) (fetch_candles_in_range db p s tf a b)) db
    rw [hex] at hr
    rcases List.mem_append.mp hr with h1 | h2
    · exact Or.inl h1
    · obtain ⟨c, -, hc⟩ := hexmem r h2
      subst hc
      exact Or.inr rfl

/-- C5 (amended). For a gapped consecutive pair the interpolator emits
exactly `missing = (Δ tdiv interval) - 1` synthetic candles; the j-th
(0-based) is the IEEE-`f64` linear interpolation of every field at the
`f64` ratio `(j+1)/(missing+1)`, with `number_of_trades` truncated via
`as i64` and `close_time = open_time + interval - 1`; its `open_time` is
`current.open_time + (Δ as f64 * ratio) as i64`, which equals the
claim's `current.open_time + (j+1)·interval` whenever `Δ = interval·2^k`
(a power-of-two candle count makes every float step exact) — but not in
general, even when Δ is a plain multiple of the interval, because of the
double rounding (see the counterexample); and every row the fill pass
adds to the store carries `interpolated = true`. -/
theorem C5_interpolator_emission (interval : Int) (current next : Candle)
    (hI : 0 < interval)
    (hgap : next.open_time - current.open_time > interval) :
    ((gapRowsFor interval current next).length : Int)
        = (next.open_time - current.open_time).tdiv interval - 1
    ∧ (gapRowsFor interval current next
        = (List.range ((next.open_time - current.open_time).tdiv interval - 1).toNat).map
            (fun (j : ℕ) => interpolate_candle current next
              (f64div (f64ofInt ((j : Int) + 1))
                (f64ofInt ((next.open_time - current.open_time).tdiv interval - 1 + 1)))
              interval))
    ∧ (∀ (c n : Candle) (ratio : ℚ),
        (interpolate_candle c n ratio interval).open_
            = f64add c.open_ (f64mul (f64sub n.open_ c.open_) ratio)
        ∧ (interpolate_candle c n ratio interval).high
            = f64add c.high (f64mul (f64sub n.high c.high) ratio)
        ∧ (interpolate_candle c n ratio interval).low
            = f64add c.low (f64mul (f64sub n.low c.low) ratio)
        ∧ (interpolate_candle c n ratio interval).close
            = f64add c.close (f64mul (f64sub n.close c.close) ratio)
        ∧ (interpolate_candle c n ratio interval).volume
            = f64add c.volume (f64mul (f64sub n.volume c.volume) ratio)
        ∧ (interpolate_candle c n ratio interval).quote_asset_volume
            = f64add c.quote_asset_volume
                (f64mul (f64sub n.quote_asset_volume c.quote_asset_volume) ratio)
        ∧ (interpolate_candle c n ratio interval).number_of_trades
            = f64toI64 (f64add (f64ofInt c.number_of_trades)
                (f64mul (f64sub (f64ofInt n.number_of_trades) (f64ofInt c.number_of_trades))
                  ratio))
        ∧ (interpolate_candle c n ratio interval).close_time
            = (interpolate_candle c n ratio interval).open_time + interval - 1)
    ∧ (∀ k : ℕ, next.open_time - current.open_time = interval * 2 ^ k →
        next.open_time - current.open_time < 2 ^ 53 →
        (gapRowsFor interval current next).map Candle.open_time
          = (List.range ((next.open_time - current.open_time).tdiv interval - 1).toNat).map
              (fun (j : ℕ) => current.open_time + ((j : ℤ) + 1) * interval))
    ∧ (∀ (db : DB) (p s tf : String) (a b : Int),
        ∀ r ∈ (fill_gaps_in_range db p s tf a b).1.candlesticks,
          r ∈ db.candlesticks ∨ r.interpolated = true) := by
  refine ⟨?_, ?_, ?_, ?_, ?_⟩
  · rw [gapRowsFor_length hI current next, if_pos hgap]
  · exact gapRowsFor_pos hgap
  · intro c n ratio
    exact ⟨rfl, rfl, rfl, rfl, rfl, rfl, rfl, rfl⟩
  · intro k hd hb
    exact gapRowsFor_open_times_pow2 hI hd hgap hb
  · intro db p s tf a b r hr
    exact fill_gaps_new_rows_interpolated db p s tf a b r hr

/-- C2 (amended). Each insertion path maintains its own close-time
relation: backfill rows copy the exchange-provided `close_time`
verbatim (the ms relation holds only if the exchange supplies it);
gap-interpolated rows satisfy
`close_time = open_time + interval_ms(timeframe) - 1` in milliseconds;
realtime rows satisfy
`close_time = open_time + timeframe_to_seconds(timeframe) - 1` with both
times in epoch **seconds**, not milliseconds. -/
theorem C2_close_time_per_path :
    (∀ (p s tf : String) (k : KlineSummary),
        (mkBackfillRow p s tf k).close_time = k.close_time)
    ∧ (∀ (current next : Candle) (ratio : ℚ) (interval : Int),
        (interpolate_candle current next ratio interval).close_time
          = (interpolate_candle current next ratio interval).open_time + interval - 1)
    ∧ (∀ (symbol tf : String) (c : RealtimeCandle),
        (save_completed_candle_row symbol tf c).open_time = c.time
        ∧ (save_completed_candle_row symbol tf c).close_time
          = (save_completed_candle_row symbol tf c).open_time
              + timeframe_to_seconds tf - 1) :=
  ⟨fun _ _ _ _ => rfl, fun _ _ _ _ => rfl, fun _ _ _ => ⟨rfl, rfl⟩⟩

/-- A closed 1h realtime candle as decoded from the websocket
(`time = start_time / 1000`, epoch seconds). -/
def rtCandle1h : RealtimeCandle :=
  { time := 1700000000, open_ := 0, high := 0, low := 0, close := 0
    volume := 0, is_closed := true }

/-- C2 (counterexample). The row persisted by the realtime path for a 1h
candle has `close_time = 1700003599`, not
`open_time + interval_ms("1h") - 1 = 1703599999`: the claimed
milliseconds invariant fails on the realtime insertion path, which works
in seconds. -/
theorem C2_counterexample :
    ¬ ((save_completed_candle_row "BTCUSDT" "1h" rtCandle1h).close_time
        = (save_completed_candle_row "BTCUSDT" "1h" rtCandle1h).open_time
            + timeframe_to_interval "1h" - 1) := by
  decide

/-- The stored pair `(0, 150000)` of a 1m series: a misaligned gap
(150000 is not a multiple of 60000). -/
def cGapA : Candle :=
  { open_time := 0, open_ := 0, high := 0, low := 0, close := 0, volume := 0
    close_time := 59999, quote_asset_volume := 0, number_of_trades := 0
    taker_buy_base_asset_volume := 0, taker_buy_quote_asset_volume := 0 }

def cGapB : Candle :=
  { open_time := 150000, open_ := 0, high := 0, low := 0, close := 0, volume := 0
    close_time := 209999, quote_asset_volume := 0, number_of_trades := 0
    taker_buy_base_asset_volume := 0, taker_buy_quote_asset_volume := 0 }

/-- The synthetic candle the fill inserts between `cGapA` and `cGapB`. -/
def cGapMid : Candle :=
  { open_time := 75000, open_ := 0, high := 0, low := 0, close := 0, volume := 0
    close_time := 134999, quote_asset_volume := 0, number_of_trades := 0
    taker_buy_base_asset_volume := 0, taker_buy_quote_asset_volume := 0 }

theorem f64ofInt_one : f64ofInt 1 = 1 :=
  (f64ofInt_small (by norm_num) (by norm_num)).trans (by norm_num)

theorem f64ofInt_two : f64ofInt 2 = 2 :=
  (f64ofInt_small (by norm_num) (by norm_num)).trans (by norm_num)

theorem f64div_half : f64div 1 2 = 1/2 := by
  unfold f64div
  rw [(by norm_num : (1:ℚ)/2 = ((1:ℕ):ℚ)/2^1), f64round_nat_div_pow2 (by norm_num) 1]

theorem f64ofInt_zero : f64ofInt 0 = 0 := by
  unfold f64ofInt
  rw [Int.cast_zero, f64round_zero]

theorem f64_zero_lerp (r : ℚ) : f64add 0 (f64mul (f64sub 0 0) r) = 0 := by
  unfold f64add f64mul f64sub
  rw [sub_self, f64round_zero, zero_mul, f64round_zero, add_zero, f64round_zero]

theorem f64toI64_zeroQ : f64toI64 0 = 0 := by
  unfold f64toI64
  rw [if_pos (le_refl 0)]
  exact Int.floor_zero

/-- The fill's emission on the misaligned 1m pair, evaluated through the
IEEE model: one candle, opening at `0 + (150000 * 0.5) as i64 = 75000`
(the ratio `1/2` and the product are exactly representable). -/
theorem gapRowsFor_cGap : gapRowsFor 60000 cGapA cGapB = [cGapMid] := by
  rw [gapRowsFor_pos (by norm_num [cGapA, cGapB])]
  have hd : cGapB.open_time - cGapA.open_time = 150000 := by decide
  have h2 : Int.tdiv 150000 60000 = 2 := by
    rw [Int.tdiv_eq_ediv (by norm_num) (by norm_num)]
    norm_num
  rw [hd, h2]
  have hr1 : ((2 : Int) - 1).toNat = 1 := rfl
  rw [hr1]
  have hrange : List.range 1 = [0] := rfl
  rw [hrange]
  simp only [List.map_cons, List.map_nil]
  have hra : f64div (f64ofInt (((0:ℕ) : Int) + 1)) (f64ofInt ((2:Int) - 1 + 1)) = 1/2 := by
    rw [(by decide : ((0:ℕ) : Int) + 1 = 1), (by decide : (2:Int) - 1 + 1 = 2),
      f64ofInt_one, f64ofInt_two, f64div_half]
  rw [hra]
  have e4 : f64ofInt 150000 = (150000:ℚ) :=
    (f64ofInt_small (by norm_num) (by norm_num)).trans (by norm_num)
  have e5 : f64mul (150000:ℚ) (1/2) = (75000:ℚ) := by
    unfold f64mul
    rw [(by norm_num : (150000:ℚ) * (1/2) = ((75000:ℤ):ℚ)),
      f64round_intCast_small (by norm_num) (by norm_num)]
    norm_num
  have e6 : f64toI64 (75000:ℚ) = 75000 := by
    rw [(by norm_num : (75000:ℚ) = ((75000:ℤ):ℚ)), f64toI64_intCast]
  have ezl := f64_zero_lerp (1/2)
  simp only [interpolate_candle, cGapA, cGapB, sub_zero]
  rw [e4, e5, e6, f64ofInt_zero, ezl, f64toI64_zeroQ]
  simp only [cGapMid]
  norm_num

/-- The plainly-aligned 5m pair 11 intervals apart: `Δ = 3 300 000 =
11 * 300 000`. -/
def cAlnA : Candle :=
  { open_time := 0, open_ := 0, high := 0, low := 0, close := 0, volume := 0
    close_time := 299999, quote_asset_volume := 0, number_of_trades := 0
    taker_buy_base_asset_volume := 0, taker_buy_quote_asset_volume := 0 }

def cAlnB : Candle :=
  { open_time := 3300000, open_ := 0, high := 0, low := 0, close := 0, volume := 0
    close_time := 3599999, quote_asset_volume := 0, number_of_trades := 0
    taker_buy_base_asset_volume := 0, taker_buy_quote_asset_volume := 0 }

theorem f64round_eval {q : ℚ} (hq : 0 < q) {e : ℤ} (hlog : Int.log 2 q = e)
    {n : ℤ} (hrhe : roundHalfEven (q * 2 ^ (52 - e)) = n) :
    f64round q = (n : ℚ) * 2 ^ (e - 52) := by
  unfold f64round
  rw [if_neg hq.ne', if_pos hq, hlog, hrhe]

theorem roundHalfEven_eval_down {q : ℚ} {f : ℤ} (hf : ⌊q⌋ = f) (hlt : q - f < 1/2) :
    roundHalfEven q = f := by
  unfold roundHalfEven
  rw [hf, if_pos hlt]

theorem int_log_pin {q : ℚ} (hq : 0 < q) (e : ℤ)
    (hlow : ((2:ℕ):ℚ) ^ e ≤ q) (hhigh : q < ((2:ℕ):ℚ) ^ (e + 1)) :
    Int.log 2 q = e := by
  have h1 := (Int.zpow_le_iff_le_log one_lt_two hq).mp hlow
  have h2 := (Int.lt_zpow_iff_log_lt one_lt_two hq).mp hhigh
  omega

theorem zpow_cast_eval (m : ℕ) : ((2:ℕ):ℚ) ^ ((m:ℕ):ℤ) = (2:ℚ) ^ m := by
  push_cast
  rw [zpow_natCast]

theorem zpow_cast_eval_neg (m : ℕ) : ((2:ℕ):ℚ) ^ (-(m:ℤ)) = ((2:ℚ) ^ m)⁻¹ := by
  push_cast
  rw [zpow_neg, zpow_natCast]

theorem int_log_three_elevenths : Int.log 2 ((3:ℚ)/11) = -2 := by
  refine int_log_pin (by norm_num) (-2) ?_ ?_
  · rw [show (-2:ℤ) = -((2:ℕ):ℤ) by norm_num, zpow_cast_eval_neg]
    norm_num
  · rw [show (-2:ℤ) + 1 = -((1:ℕ):ℤ) by norm_num, zpow_cast_eval_neg]
    norm_num

/-- `3/11` is not dyadic: the f64 value of the loop's ratio `3/11` is the
nearest double `4913017775313268 / 2^54`, strictly below `3/11`. -/
theorem f64round_three_elevenths :
    f64round ((3:ℚ)/11) = 4913017775313268 / 2 ^ 54 := by
  have hs : ((3:ℚ)/11) * 2 ^ ((52:ℤ) - (-2)) = 54043195528445952 / 11 := by
    rw [show (52:ℤ) - (-2) = ((54:ℕ):ℤ) by norm_num, zpow_natCast]
    norm_num
  have hfloor : ⌊(54043195528445952 : ℚ) / 11⌋ = 4913017775313268 := by
    rw [Int.floor_eq_iff]
    norm_num
  have hrhe : roundHalfEven (((3:ℚ)/11) * 2 ^ ((52:ℤ) - (-2))) = 4913017775313268 := by
    rw [hs]
    refine roundHalfEven_eval_down hfloor ?_
    norm_num
  have h := f64round_eval (by norm_num) int_log_three_elevenths hrhe
  rw [h, show (-2:ℤ) - 52 = -((54:ℕ):ℤ) by norm_num, zpow_neg, zpow_natCast]
  norm_num

theorem int_log_q2 :
    Int.log 2 ((3300000:ℚ) * (4913017775313268 / 2 ^ 54)) = 19 := by
  refine int_log_pin (by norm_num) 19 ?_ ?_
  · rw [show (19:ℤ) = (((19:ℕ)):ℤ) by norm_num, zpow_cast_eval]
    norm_num
  · rw [show (19:ℤ) + 1 = (((20:ℕ)):ℤ) by norm_num, zpow_cast_eval]
    norm_num

/-- The second rounding: `3300000 * fl(3/11)` is `900000 - 2^-24.4...`,
and the nearest double is `7730941132799999 / 2^33`, still strictly
below the grid point `900000`. -/
theorem f64round_q2 :
    f64round ((3300000:ℚ) * (4913017775313268 / 2 ^ 54))
      = 7730941132799999 / 2 ^ 33 := by
  have hs : ((3300000:ℚ) * (4913017775313268 / 2 ^ 54)) * 2 ^ ((52:ℤ) - 19)
      = 16212958658533784400000 / 2 ^ 21 := by
    rw [show (52:ℤ) - 19 = ((33:ℕ):ℤ) by norm_num, zpow_natCast]
    norm_num
  have hfloor : ⌊(16212958658533784400000 : ℚ) / 2 ^ 21⌋ = 7730941132799999 := by
    rw [Int.floor_eq_iff]
    norm_num
  have hrhe : roundHalfEven (((3300000:ℚ) * (4913017775313268 / 2 ^ 54)) * 2 ^ ((52:ℤ) - 19))
      = 7730941132799999 := by
    rw [hs]
    refine roundHalfEven_eval_down hfloor ?_
    norm_num
  have h := f64round_eval (by norm_num) int_log_q2 hrhe
  rw [h, show (19:ℤ) - 52 = -((33:ℕ):ℤ) by norm_num, zpow_neg, zpow_natCast]
  norm_num

/-- The double rounding lands one below the grid: on the aligned 5m gap
of 11 intervals, loop index 3 emits `(3300000 as f64 * fl(3/11)) as i64
= 899999`, not the grid point `900000`. -/
theorem aligned_miss :
    f64toI64 (f64mul (f64ofInt 3300000)
      (f64div (f64ofInt 3) (f64ofInt 11))) = 899999 := by
  have h3 : f64ofInt 3 = 3 :=
    (f64ofInt_small (by norm_num) (by norm_num)).trans (by norm_num)
  have h11 : f64ofInt 11 = 11 :=
    (f64ofInt_small (by norm_num) (by norm_num)).trans (by norm_num)
  have hbig : f64ofInt 3300000 = 3300000 :=
    (f64ofInt_small (by norm_num) (by norm_num)).trans (by norm_num)
  rw [h3, h11, hbig]
  unfold f64div
  rw [f64round_three_elevenths]
  unfold f64mul
  rw [f64round_q2]
  unfold f64toI64
  rw [if_pos (by norm_num), Int.floor_eq_iff]
  norm_num

/-- The 0-based j = 2 emission of the aligned 5m/11-interval gap opens
at 899999, not the grid point 900000. -/
theorem cAln_elem2 :
    (interpolate_candle cAlnA cAlnB
        (f64div (f64ofInt (((2:ℕ) : Int) + 1)) (f64ofInt ((11:Int) - 1 + 1)))
        300000).open_time = 899999 := by
  unfold interpolate_candle
  simp only
  rw [(by decide : ((2:ℕ) : Int) + 1 = 3), (by decide : (11:Int) - 1 + 1 = 11),
    (by decide : cAlnB.open_time - cAlnA.open_time = 3300000)]
  rw [aligned_miss]
  norm_num [cAlnA]

theorem cAln_mem :
    ∃ c ∈ gapRowsFor 300000 cAlnA cAlnB, c.open_time = 899999 := by
  rw [gapRowsFor_pos (by norm_num [cAlnA, cAlnB])]
  refine ⟨interpolate_candle cAlnA cAlnB
      (f64div (f64ofInt (((2:ℕ) : Int) + 1))
        (f64ofInt ((cAlnB.open_time - cAlnA.open_time).tdiv 300000 - 1 + 1)))
      300000, ?_, ?_⟩
  · refine List.mem_map_of_mem _ (List.mem_range.mpr ?_)
    have hd : cAlnB.open_time - cAlnA.open_time = 3300000 := by decide
    rw [hd]
    decide
  · have hx : (cAlnB.open_time - cAlnA.open_time).tdiv 300000 - 1 + 1
        = (11:Int) - 1 + 1 := by decide
    rw [hx]
    exact cAln_elem2

/-- C5 (counterexample). Part one refutes the claim as stated: for the
1m pair at open_times 0 and 150000 (`Δ = 150000 > 60000`, `missing = 1`)
the single emitted synthetic candle opens at 75000, not at the claim's
`a.open_time + 1·interval = 60000`. Part two shows the grid formula
fails even for a plainly aligned gap: on the 5m pair 11 intervals apart
(Δ = 3 300 000, an exact multiple of 300 000) one emitted candle opens
at 899999, which is off the interval grid, because
`fl(3300000 · fl(3/11))` falls just below 900000 and `as i64`
truncates. -/
theorem C5_counterexample :
    ((gapRowsFor 60000 cGapA cGapB).map Candle.open_time = [75000]
      ∧ ¬ ((75000 : Int) = cGapA.open_time + 1 * 60000))
    ∧ ((∃ c ∈ gapRowsFor 300000 cAlnA cAlnB, c.open_time = 899999)
      ∧ (300000 : Int) ∣ (cAlnB.open_time - cAlnA.open_time)
      ∧ ¬ ((300000 : Int) ∣ (899999 - cAlnA.open_time))) := by
  refine ⟨⟨?_, by norm_num [cGapA]⟩, cAln_mem, by decide, by decide⟩
  rw [gapRowsFor_cGap]
  rfl

theorem mem_fetch_iff (db : DB) (p s tf : String) (a b : Int) (t : Int) :
    (∃ c ∈ fetch_candles_in_range db p s tf a b, c.open_time = t)
      ↔ t ∈ keyOpenTimesIn db p s tf a b := by
  unfold fetch_candles_in_range keyOpenTimesIn
  constructor
  · rintro ⟨c, hc, rfl⟩
    have hmem := (List.perm_insertionSort candleLE
      ((windowRows db p s tf a b).map Row.toCandle)).mem_iff.mp hc
    obtain ⟨r, hr, rfl⟩ := List.mem_map.mp hmem
    exact List.mem_map_of_mem Row.open_time hr
  · intro ht
    obtain ⟨r, hr, rfl⟩ := List.mem_map.mp ht
    refine ⟨r.toCandle, ?_, rfl⟩
    exact (List.perm_insertionSort candleLE
      ((windowRows db p s tf a b).map Row.toCandle)).mem_iff.mpr
      (List.mem_map_of_mem Row.toCandle hr)

theorem windowRows_spec {db : DB} {p s tf : String} {a b : Int} {r : Row}
    (hr : r ∈ windowRows db p s tf a b) :
    r ∈ db.candlesticks ∧ r.keyMatch p s tf = true ∧ a ≤ r.open_time ∧ r.open_time ≤ b := by
  unfold windowRows at hr
  have h := List.mem_filter.mp hr
  refine ⟨h.1, ?_, ?_, ?_⟩ <;>
    · have := h.2
      simp only [Bool.and_eq_true, decide_eq_true_eq] at this
      tauto

theorem mem_windowRows {db : DB} {p s tf : String} {a b : Int} {r : Row}
    (h1 : r ∈ db.candlesticks) (h2 : r.keyMatch p s tf = true)
    (h3 : a ≤ r.open_time) (h4 : r.open_time ≤ b) :
    r ∈ windowRows db p s tf a b := by
  unfold windowRows
  refine List.mem_filter.mpr ⟨h1, ?_⟩
  simp [h2, h3, h4]

theorem fetch_window_bounds (db : DB) (p s tf : String) (a b : Int) :
    ∀ c ∈ fetch_candles_in_range db p s tf a b, a ≤ c.open_time ∧ c.open_time ≤ b := by
  intro c hc
  unfold fetch_candles_in_range at hc
  have hmem := (List.perm_insertionSort candleLE
    ((windowRows db p s tf a b).map Row.toCandle)).mem_iff.mp hc
  obtain ⟨r, hr, rfl⟩ := List.mem_map.mp hmem
  have h := windowRows_spec hr
  exact ⟨h.2.2.1, h.2.2.2⟩

theorem fetch_sorted (db : DB) (p s tf : String) (a b : Int) :
    List.Pairwise candleLE (fetch_candles_in_range db p s tf a b) :=
  List.sorted_insertionSort candleLE ((windowRows db p s tf a b).map Row.toCandle)

theorem pairwise_head_le {cs : List Candle} {c0 : Candle}
    (hs : List.Pairwise candleLE cs) (hh : cs.head? = some c0) :
    ∀ c ∈ cs, c0.open_time ≤ c.open_time := by
  cases cs with
  | nil => cases hh
  | cons x xs =>
    injection hh with hh
    subst hh
    intro c hc
    rcases List.mem_cons.mp hc with hc0 | hc
    · subst hc0; exact le_refl _
    · exact (List.pairwise_cons.mp hs).1 c hc

theorem pairwise_getLast_ge {cs : List Candle} :
    ∀ {cl : Candle}, List.Pairwise candleLE cs → cs.getLast? = some cl →
      ∀ c ∈ cs, c.open_time ≤ cl.open_time := by
  induction cs with
  | nil => intro cl _ hl; cases hl
  | cons x xs ih =>
    intro cl hs hl c hc
    cases xs with
    | nil =>
      have hx : cl = x := by
        simp only [List.getLast?_singleton, Option.some.injEq] at hl
        exact hl.symm
      subst hx
      rcases List.mem_cons.mp hc with hc0 | hc0
      · subst hc0; exact le_refl _
      · cases hc0
    | cons y ys =>
      rw [List.getLast?_cons_cons] at hl
      rcases List.mem_cons.mp hc with hc0 | hc0
      · subst hc0
        exact (List.pairwise_cons.mp hs).1 cl (List.mem_of_mem_getLast? hl)
      · exact ih (List.pairwise_cons.mp hs).2 hl c hc0

/-- Consecutive stored candles of the scan either coincide or are
`interval * 2^k` apart, within the f64-exact integer range — the shape
under which the fill lands exactly on the interval grid. -/
def alignedPow2 (I : Int) (u v : Candle) : Prop :=
  u.open_time = v.open_time ∨
    ∃ k : ℕ, v.open_time - u.open_time = I * 2 ^ k
      ∧ v.open_time - u.open_time < 2 ^ 53

/-- A sorted scan satisfies a relation on consecutive elements as soon as
the relation holds for every temporally-adjacent strict pair of its
members and for coinciding times. -/
theorem chain'_adjacent_of_pairwise {P : Candle → Candle → Prop}
    (hEq : ∀ u v, u.open_time = v.open_time → P u v) :
    ∀ cs : List Candle, List.Pairwise candleLE cs →
      (∀ u ∈ cs, ∀ v ∈ cs, u.open_time < v.open_time →
        (∀ w ∈ cs, ¬ (u.open_time < w.open_time ∧ w.open_time < v.open_time)) →
        P u v) →
      List.Chain' P cs := by
  intro cs
  induction cs with
  | nil => intro _ _; exact List.chain'_nil
  | cons c cs ih =>
    cases cs with
    | nil => intro _ _; exact List.chain'_singleton c
    | cons c' rest =>
      intro hs hP
      rw [List.chain'_cons]
      constructor
      · have hle : c.open_time ≤ c'.open_time :=
          (List.pairwise_cons.mp hs).1 c' (by simp)
        rcases eq_or_lt_of_le hle with heq | hlt
        · exact hEq c c' heq
        · refine hP c (by simp) c' (by simp) hlt ?_
          intro w hw hww
          rcases List.mem_cons.mp hw with hw0 | hw'
          · rw [hw0] at hww
            exact lt_irrefl _ hww.1
          · have hcw : c'.open_time ≤ w.open_time := by
              rcases List.mem_cons.mp hw' with hw1 | hw2
              · rw [hw1]
              · exact (List.pairwise_cons.mp (List.pairwise_cons.mp hs).2).1 w hw2
            exact absurd hww.2 (not_lt.mpr hcw)
      · refine ih (List.pairwise_cons.mp hs).2 ?_
        intro u hu v hv huv hnb
        refine hP u (List.mem_cons_of_mem c hu) v (List.mem_cons_of_mem c hv) huv ?_
        intro w hw hww
        rcases List.mem_cons.mp hw with hw0 | hw'
        · have hcu : w.open_time ≤ u.open_time := by
            rw [hw0]
            exact (List.pairwise_cons.mp hs).1 u hu
          exact absurd hww.1 (not_lt.mpr hcu)
        · exact hnb w hw' hww

/-- Along an `alignedPow2` chain every element's distance to the head is
a multiple of the interval. -/
theorem chain_div_head {I : Int} :
    ∀ (cs : List Candle) (c0 : Candle), List.Chain' (alignedPow2 I) cs →
      cs.head? = some c0 → ∀ c ∈ cs, I ∣ (c.open_time - c0.open_time) := by
  intro cs
  induction cs with
  | nil => intro c0 _ hh; cases hh
  | cons x xs ih =>
    intro c0 hch hh c hc
    have hx : x = c0 := by injection hh
    rcases List.mem_cons.mp hc with hc0 | hc'
    · rw [hc0, ← hx, sub_self]
      exact dvd_zero _
    · cases xs with
      | nil => cases hc'
      | cons y ys =>
        have hlink : alignedPow2 I x y := (List.chain'_cons.mp hch).1
        have hdxy : I ∣ (y.open_time - x.open_time) := by
          rcases hlink with heq | ⟨k, hk, -⟩
          · rw [← heq, sub_self]
            exact dvd_zero _
          · exact ⟨2 ^ k, hk⟩
        have htail : List.Chain' (alignedPow2 I) (y :: ys) :=
          (List.chain'_cons.mp hch).2
        have hrec := ih y htail rfl c hc'
        have hsplit : c.open_time - c0.open_time
            = (c.open_time - y.open_time) + (y.open_time - x.open_time)
              + (x.open_time - c0.open_time) := by ring
        rw [hsplit, hx, sub_self, add_zero]
        exact dvd_add hrec (by rw [← hx]; exact hdxy)

/-- Every synthetic candle of an `alignedPow2` scan lies strictly between
two stored candles of the scan and is congruent to them modulo the
interval. -/
theorem gapRowsAll_mem_between {I : Int} (hI : 0 < I) :
    ∀ (cs : List Candle), List.Chain' (alignedPow2 I) cs →
      ∀ g ∈ gapRowsAll I cs,
        ∃ c ∈ cs, ∃ c' ∈ cs, c.open_time < g.open_time ∧ g.open_time < c'.open_time
          ∧ I ∣ (g.open_time - c.open_time) := by
  intro cs
  induction cs with
  | nil => intro _ g hg; cases hg
  | cons c cs ih =>
    cases cs with
    | nil => intro _ g hg; cases hg
    | cons c' rest =>
      intro hch g hg
      have hlink : alignedPow2 I c c' := (List.chain'_cons.mp hch).1
      rcases List.mem_append.mp hg with hg1 | hg2
      · by_cases hgap : c'.open_time - c.open_time > I
        · rcases hlink with heq | ⟨k, hk, hb⟩
          · rw [← heq] at hgap
            omega
          · have hdcc : I ∣ (c'.open_time - c.open_time) := ⟨2 ^ k, hk⟩
            have hmap := gapRowsFor_open_times_pow2 hI hk hgap hb
            have hmemt : g.open_time ∈ (gapRowsFor I c c').map Candle.open_time :=
              List.mem_map_of_mem Candle.open_time hg1
            rw [hmap] at hmemt
            obtain ⟨j, hj, hval⟩ := List.mem_map.mp hmemt
            have hjlt : j < ((c'.open_time - c.open_time).tdiv I - 1).toNat :=
              List.mem_range.mp hj
            have hmnn : 0 ≤ (c'.open_time - c.open_time).tdiv I - 1 :=
              missing_candles_nonneg hI hgap
            have hjm : (j : ℤ) < (c'.open_time - c.open_time).tdiv I - 1 := by
              have := Int.toNat_of_nonneg hmnn
              omega
            have hm1 : ((c'.open_time - c.open_time).tdiv I - 1 + 1) * I
                = c'.open_time - c.open_time := by
              rw [Int.tdiv_eq_ediv_of_dvd hdcc]
              simpa using Int.ediv_mul_cancel hdcc
            refine ⟨c, by simp, c', by simp, ?_, ?_, ?_⟩
            · rw [← hval]
              have : (0 : ℤ) < ((j : ℤ) + 1) * I := by positivity
              omega
            · rw [← hval]
              nlinarith [hjm, hI, hm1]
            · rw [← hval]
              exact ⟨(j : ℤ) + 1, by ring⟩
        · unfold gapRowsFor at hg1
          rw [if_neg hgap] at hg1
          cases hg1
      · obtain ⟨cc, hcc, cc', hcc', h1, h2, h3⟩ := ih
          (List.chain'_cons.mp hch).2 g hg2
        exact ⟨cc, List.mem_cons_of_mem c hcc, cc', List.mem_cons_of_mem c hcc', h1, h2, h3⟩

/-- Cover lemma: on an `alignedPow2`, sorted scan, every time between the
first and last scanned candle that is congruent to the first one is
either a scanned open_time or the open_time of an emitted synthetic
candle. -/
theorem gap_cover {I : Int} (hI : 0 < I) :
    ∀ (cs : List Candle) (c0 cl : Candle),
      List.Pairwise candleLE cs →
      List.Chain' (alignedPow2 I) cs →
      cs.head? = some c0 → cs.getLast? = some cl →
      ∀ t : Int, c0.open_time ≤ t → t ≤ cl.open_time → I ∣ (t - c0.open_time) →
        (∃ c ∈ cs, c.open_time = t) ∨ (∃ g ∈ gapRowsAll I cs, g.open_time = t) := by
  intro cs
  induction cs with
  | nil => intro c cl _ _ hh _; cases hh
  | cons c cs ih =>
    cases cs with
    | nil =>
      intro c0 cl _ _ hh hl t h1 h2 _
      have hcc : c = c0 := by injection hh
      have hcl : cl = c := by
        simp only [List.getLast?_singleton, Option.some.injEq] at hl
        exact hl.symm
      left
      refine ⟨c, by simp, ?_⟩
      have h1' : c.open_time ≤ t := by rw [hcc]; exact h1
      have h2' : t ≤ c.open_time := by rw [← hcl]; exact h2
      exact le_antisymm h1' h2'
    | cons c' rest =>
      intro c0 cl hsorted hch hh hl t h1 h2 hdt
      have hcc : c = c0 := by injection hh
      rw [← hcc] at h1 hdt
      rw [List.getLast?_cons_cons] at hl
      have hlink : alignedPow2 I c c' := (List.chain'_cons.mp hch).1
      rcases lt_trichotomy t c'.open_time with hlt | heq | hgt
      · rcases eq_or_lt_of_le h1 with heq0 | hlt0
        · left; exact ⟨c, by simp, heq0⟩
        · -- strictly inside the first segment: t comes from gapRowsFor c c'
          obtain ⟨k, hk⟩ := hdt
          have hkpos : 0 < k := by nlinarith [hI, hlt0, hk]
          have hgap : c'.open_time - c.open_time > I := by
            have hIk : I ≤ I * k := le_mul_of_one_le_right (le_of_lt hI) hkpos
            omega
          rcases hlink with heqL | ⟨kk, hkk, hbb⟩
          · rw [← heqL] at hgap
            omega
          · have hdcc : I ∣ (c'.open_time - c.open_time) := ⟨2 ^ kk, hkk⟩
            have hm1 : ((c'.open_time - c.open_time).tdiv I - 1 + 1) * I
                = c'.open_time - c.open_time := by
              rw [Int.tdiv_eq_ediv_of_dvd hdcc]
              simpa using Int.ediv_mul_cancel hdcc
            have hkm : k ≤ (c'.open_time - c.open_time).tdiv I - 1 := by
              nlinarith [hm1, hI, hlt, hk]
            have hmap := gapRowsFor_open_times_pow2 hI hkk hgap hbb
            have hmem : t ∈ (gapRowsFor I c c').map Candle.open_time := by
              rw [hmap]
              refine List.mem_map.mpr ⟨(k - 1).toNat, ?_, ?_⟩
              · refine List.mem_range.mpr ?_
                have hmnn : 0 ≤ (c'.open_time - c.open_time).tdiv I - 1 :=
                  missing_candles_nonneg hI hgap
                omega
              · have hcast : (((k - 1).toNat : ℤ)) = k - 1 :=
                  Int.toNat_of_nonneg (by omega)
                rw [hcast]
                have : (k - 1 + 1) * I = I * k := by ring
                omega
            obtain ⟨g, hg, hgt'⟩ := List.mem_map.mp hmem
            right
            exact ⟨g, List.mem_append_left _ hg, hgt'⟩
      · left; exact ⟨c', by simp, heq.symm⟩
      · have hdc' : I ∣ (c'.open_time - c.open_time) := by
          rcases hlink with heqL | ⟨kk, hkk, -⟩
          · rw [← heqL, sub_self]
            exact dvd_zero _
          · exact ⟨2 ^ kk, hkk⟩
        have hrec := ih c' cl (List.pairwise_cons.mp hsorted).2
          (List.chain'_cons.mp hch).2
          rfl hl t (le_of_lt hgt) h2
          (by
            have : t - c'.open_time = (t - c.open_time) - (c'.open_time - c.open_time) := by
              ring
            rw [this]
            exact dvd_sub hdt hdc')
        rcases hrec with ⟨cc, hcc, hcct⟩ | ⟨g, hg, hgt'⟩
        · left; exact ⟨cc, List.mem_cons_of_mem c hcc, hcct⟩
        · right; exact ⟨g, List.mem_append_right _ hg, hgt'⟩

/-- Each synthetic candle the fill loop processes ends up represented in
the store: a row with its `(provider, symbol, timeframe, open_time)` key
is present afterwards (either the inserted row or the already-present
row that made `INSERT OR IGNORE` skip it). -/
theorem insertInterpolated_present (p s tf : String) :
    ∀ (cs : List Candle) (db : DB), ∀ c ∈ cs,
      ∃ r ∈ (insertInterpolated p s tf db cs).1.candlesticks,
        r.keyMatch p s tf = true ∧ r.open_time = c.open_time := by
  intro cs
  induction cs with
  | nil => intro db c hc; cases hc
  | cons chead cs ih =>
    intro db c hc
    rcases List.mem_cons.mp hc with hc0 | hcs
    · subst hc0
      have hkey : ∃ r ∈ (insertOrIgnore db.candlesticks (candleToRow p s tf true c)).1,
          r.keyMatch p s tf = true ∧ r.open_time = c.open_time := by
        unfold insertOrIgnore
        by_cases h : db.candlesticks.any (fun x => x.sameKey (candleToRow p s tf true c)) = true
        · rw [if_pos h]
          obtain ⟨x, hx, hxk⟩ := List.any_eq_true.mp h
          simp only [Row.sameKey, candleToRow, Bool.and_eq_true, beq_iff_eq] at hxk
          refine ⟨x, hx, ?_, hxk.2⟩
          simp [Row.keyMatch, hxk.1.1.1, hxk.1.1.2, hxk.1.2]
        · rw [if_neg h]
          refine ⟨candleToRow p s tf true c, List.mem_append_right _ (by simp), ?_, rfl⟩
          simp [candleToRow, Row.keyMatch]
      obtain ⟨r, hr, hrk, hrt⟩ := hkey
      obtain ⟨⟨extra, hex, -⟩, -⟩ := insertInterpolated_decomp p s tf cs
        { db with candlesticks := (insertOrIgnore db.candlesticks (candleToRow p s tf true c)).1 }
      refine ⟨r, ?_, hrk, hrt⟩
      show r ∈ (insertInterpolated p s tf _ cs).1.candlesticks
      rw [hex]
      exact List.mem_append_left _ hr
    · exact ih
        { db with candlesticks := (insertOrIgnore db.candlesticks (candleToRow p s tf true chead)).1 }
        c hcs

/-- `fill_gaps_in_range` only ever appends to the candle store. -/
theorem fill_gaps_append (db : DB) (p s tf : String) (a b : Int) :
    ∃ extra, (fill_gaps_in_range db p s tf a b).1.candlesticks
      = db.candlesticks ++ extra := by
  unfold fill_gaps_in_range
  by_cases h : (fetch_candles_in_range db p s tf a b).length < 2
  · rw [if_pos h]; exact ⟨[], by simp⟩
  · rw [if_neg h]
    obtain ⟨⟨extra, hex, -⟩, -⟩ := insertInterpolated_decomp p s tf
      (gapRowsAll (timeframe_to_interval tf) (fetch_candles_in_range db p s tf a b)) db
    exact ⟨extra, hex⟩

/-- Forward post-state characterization: every in-window key open_time
after the fill is either an original one or the open_time of a synthetic
candle of the scan. -/
theorem post_mem_fwd (db : DB) (p s tf : String) (a b : Int)
    (hlen : ¬ (fetch_candles_in_range db p s tf a b).length < 2)
    {t : Int}
    (ht : t ∈ keyOpenTimesIn (fill_gaps_in_range db p s tf a b).1 p s tf a b) :
    t ∈ keyOpenTimesIn db p s tf a b
    ∨ ∃ g ∈ gapRowsAll (timeframe_to_interval tf)
        (fetch_candles_in_range db p s tf a b), g.open_time = t := by
  unfold keyOpenTimesIn at ht
  obtain ⟨r, hr, rfl⟩ := List.mem_map.mp ht
  obtain ⟨hrmem, hrkey, hra, hrb⟩ := windowRows_spec hr
  unfold fill_gaps_in_range at hrmem
  rw [if_neg hlen] at hrmem
  obtain ⟨⟨extra, hex, hexmem⟩, -⟩ := insertInterpolated_decomp p s tf
    (gapRowsAll (timeframe_to_interval tf) (fetch_candles_in_range db p s tf a b)) db
  rw [hex] at hrmem
  rcases List.mem_append.mp hrmem with h1 | h2
  · left
    exact List.mem_map_of_mem Row.open_time (mem_windowRows h1 hrkey hra hrb)
  · obtain ⟨g, hg, rfl⟩ := hexmem r h2
    right
    exact ⟨g, hg, rfl⟩

/-- Original in-window open_times survive the fill. -/
theorem post_mem_orig (db : DB) (p s tf : String) (a b : Int)
    {t : Int} (ht : t ∈ keyOpenTimesIn db p s tf a b) :
    t ∈ keyOpenTimesIn (fill_gaps_in_range db p s tf a b).1 p s tf a b := by
  unfold keyOpenTimesIn at ht ⊢
  obtain ⟨r, hr, rfl⟩ := List.mem_map.mp ht
  obtain ⟨hrmem, hrkey, hra, hrb⟩ := windowRows_spec hr
  obtain ⟨extra, hex⟩ := fill_gaps_append db p s tf a b
  refine List.mem_map_of_mem Row.open_time (mem_windowRows ?_ hrkey hra hrb)
  rw [hex]
  exact List.mem_append_left _ hrmem

/-- In-window synthetic open_times are present after the fill. -/
theorem post_mem_gap (db : DB) (p s tf : String) (a b : Int)
    (hlen : ¬ (fetch_candles_in_range db p s tf a b).length < 2)
    {g : Candle}
    (hg : g ∈ gapRowsAll (timeframe_to_interval tf) (fetch_candles_in_range db p s tf a b))
    (hga : a ≤ g.open_time) (hgb : g.open_time ≤ b) :
    g.open_time ∈ keyOpenTimesIn (fill_gaps_in_range db p s tf a b).1 p s tf a b := by
  obtain ⟨r, hr, hrk, hrt⟩ := insertInterpolated_present p s tf
    (gapRowsAll (timeframe_to_interval tf) (fetch_candles_in_range db p s tf a b)) db g hg
  have hrmem : r ∈ (fill_gaps_in_range db p s tf a b).1.candlesticks := by
    unfold fill_gaps_in_range
    rw [if_neg hlen]
    exact hr
  unfold keyOpenTimesIn
  refine List.mem_map.mpr ⟨r, mem_windowRows hrmem hrk ?_ ?_, hrt⟩
  · rw [hrt]; exact hga
  · rw [hrt]; exact hgb

/-- C4 (amended). After `fill_gaps_in_range` on a window `[s, e]`,
provided every pair of temporally-adjacent stored open_times of the key
inside the window differs by `interval * 2^k` for some `k` (within the
f64-exact integer range; for such gaps the interpolator's IEEE `f64`
ratio arithmetic is exact — the counterexample shows the claim fails
without this, and rounding breaks even plainly aligned gaps), any two
temporally-adjacent stored candles of the key inside the window are
exactly one interval apart afterwards. -/
theorem C4_fill_gaps_adjacent (db : DB) (p s tf : String) (a b : Int)
    (hpre : ∀ x ∈ keyOpenTimesIn db p s tf a b, ∀ y ∈ keyOpenTimesIn db p s tf a b,
      x < y → (∀ z ∈ keyOpenTimesIn db p s tf a b, ¬ (x < z ∧ z < y)) →
      ∃ k : ℕ, y - x = timeframe_to_interval tf * 2 ^ k ∧ y - x < 2 ^ 53) :
    ∀ x ∈ keyOpenTimesIn (fill_gaps_in_range db p s tf a b).1 p s tf a b,
      ∀ y ∈ keyOpenTimesIn (fill_gaps_in_range db p s tf a b).1 p s tf a b,
        x < y →
        (∀ z ∈ keyOpenTimesIn (fill_gaps_in_range db p s tf a b).1 p s tf a b,
          ¬ (x < z ∧ z < y)) →
        y - x = timeframe_to_interval tf := by
  intro x hx y hy hxy hadj
  have hI : 0 < timeframe_to_interval tf := timeframe_to_interval_pos tf
  by_cases hlen : (fetch_candles_in_range db p s tf a b).length < 2
  · -- the fill is a no-op and the window holds at most one candle
    have hpost : (fill_gaps_in_range db p s tf a b).1 = db := by
      unfold fill_gaps_in_range
      rw [if_pos hlen]
    rw [hpost] at hx hy
    have hleneq : (fetch_candles_in_range db p s tf a b).length
        = (keyOpenTimesIn db p s tf a b).length := by
      unfold fetch_candles_in_range keyOpenTimesIn
      rw [(List.perm_insertionSort candleLE _).length_eq]
      simp
    cases hl2 : keyOpenTimesIn db p s tf a b with
    | nil => rw [hl2] at hx; cases hx
    | cons t ts =>
      cases ts with
      | nil =>
        rw [hl2] at hx hy
        have hx' : x = t := by simpa using hx
        have hy' : y = t := by simpa using hy
        omega
      | cons t2 ts2 =>
        rw [hl2] at hleneq
        rw [hleneq] at hlen
        simp only [List.length_cons] at hlen
        omega
  · -- the scan has at least two candles
    obtain ⟨c0, hc0⟩ : ∃ c0, (fetch_candles_in_range db p s tf a b).head? = some c0 := by
      cases hfet : fetch_candles_in_range db p s tf a b with
      | nil => rw [hfet] at hlen; simp at hlen
      | cons c cs => exact ⟨c, rfl⟩
    obtain ⟨cl, hcl⟩ : ∃ cl, (fetch_candles_in_range db p s tf a b).getLast? = some cl := by
      cases hfet : fetch_candles_in_range db p s tf a b with
      | nil => rw [hfet] at hlen; simp at hlen
      | cons c cs => exact ⟨(c :: cs).getLast (by simp), List.getLast?_eq_getLast _ _⟩
    have hsort := fetch_sorted db p s tf a b
    have hchF : List.Chain' (alignedPow2 (timeframe_to_interval tf))
        (fetch_candles_in_range db p s tf a b) := by
      refine chain'_adjacent_of_pairwise (fun u v h => Or.inl h) _ hsort ?_
      intro u hu v hv huv hnb
      have hz' : ∀ z ∈ keyOpenTimesIn db p s tf a b,
          ¬ (u.open_time < z ∧ z < v.open_time) := by
        intro z hz hzz
        obtain ⟨w, hw, hwz⟩ := (mem_fetch_iff db p s tf a b z).mpr hz
        exact hnb w hw (by rw [hwz]; exact hzz)
      obtain ⟨k, hk, hb⟩ := hpre u.open_time
        ((mem_fetch_iff db p s tf a b u.open_time).mp ⟨u, hu, rfl⟩)
        v.open_time ((mem_fetch_iff db p s tf a b v.open_time).mp ⟨v, hv, rfl⟩)
        huv hz'
      exact Or.inr ⟨k, hk, hb⟩
    have hdivHead : ∀ c ∈ fetch_candles_in_range db p s tf a b,
        timeframe_to_interval tf ∣ (c.open_time - c0.open_time) :=
      chain_div_head _ c0 hchF hc0
    have hpostP : ∀ t, t ∈ keyOpenTimesIn (fill_gaps_in_range db p s tf a b).1 p s tf a b →
        timeframe_to_interval tf ∣ (t - c0.open_time)
          ∧ c0.open_time ≤ t ∧ t ≤ cl.open_time := by
      intro t ht
      rcases post_mem_fwd db p s tf a b hlen ht with h1 | ⟨g, hg, hgt⟩
      · obtain ⟨c, hc, rfl⟩ := (mem_fetch_iff db p s tf a b t).mpr h1
        exact ⟨hdivHead c hc,
          pairwise_head_le hsort hc0 c hc,
          pairwise_getLast_ge hsort hcl c hc⟩
      · subst hgt
        obtain ⟨cc, hcc, cc', hcc', hb1, hb2, hb3⟩ :=
          gapRowsAll_mem_between hI _ hchF g hg
        refine ⟨?_, ?_, ?_⟩
        · have : g.open_time - c0.open_time
              = (g.open_time - cc.open_time) + (cc.open_time - c0.open_time) := by ring
          rw [this]
          exact dvd_add hb3 (hdivHead cc hcc)
        · exact le_trans (pairwise_head_le hsort hc0 cc hcc) (le_of_lt hb1)
        · exact le_trans (le_of_lt hb2) (pairwise_getLast_ge hsort hcl cc' hcc')
    obtain ⟨hdx, hx1, hx2⟩ := hpostP x hx
    obtain ⟨hdy, hy1, hy2⟩ := hpostP y hy
    have hdxy : timeframe_to_interval tf ∣ (y - x) := by
      have hyx : y - x = (y - c0.open_time) - (x - c0.open_time) := by ring
      rw [hyx]
      exact dvd_sub hdy hdx
    obtain ⟨k, hk⟩ := hdxy
    have hk1 : 1 ≤ k := by nlinarith [hI, hxy, hk]
    rcases eq_or_lt_of_le hk1 with hk2 | hk2
    · rw [← hk2] at hk
      omega
    · -- k ≥ 2; the covered point x + interval lies strictly between x and y
      exfalso
      have hxIy : x + timeframe_to_interval tf < y := by
        have h2k : timeframe_to_interval tf * 2 ≤ timeframe_to_interval tf * k :=
          mul_le_mul_of_nonneg_left (by omega) (le_of_lt hI)
        omega
      have hcov := gap_cover hI (fetch_candles_in_range db p s tf a b) c0 cl
        hsort hchF hc0 hcl (x + timeframe_to_interval tf)
        (by omega)
        (by omega)
        (by
          have hsum : x + timeframe_to_interval tf - c0.open_time
              = (x - c0.open_time) + timeframe_to_interval tf := by ring
          rw [hsum]
          exact dvd_add hdx ⟨1, by ring⟩)
      have hzmem : (x + timeframe_to_interval tf)
          ∈ keyOpenTimesIn (fill_gaps_in_range db p s tf a b).1 p s tf a b := by
        rcases hcov with ⟨c, hc, hct⟩ | ⟨g, hg, hgt⟩
        · exact post_mem_orig db p s tf a b
            ((mem_fetch_iff db p s tf a b _).mp ⟨c, hc, hct⟩)
        · obtain ⟨cc, hcc, cc', hcc', hb1, hb2, -⟩ :=
            gapRowsAll_mem_between hI _ hchF g hg
          have hab1 : a ≤ g.open_time :=
            le_trans (fetch_window_bounds db p s tf a b cc hcc).1 (le_of_lt hb1)
          have hab2 : g.open_time ≤ b :=
            le_trans (le_of_lt hb2) (fetch_window_bounds db p s tf a b cc' hcc').2
          have := post_mem_gap db p s tf a b hlen hg hab1 hab2
          rw [hgt] at this
          exact this
      exact hadj (x + timeframe_to_interval tf) hzmem ⟨by omega, hxIy⟩

/-- An aligned two-candle 1m store for exercising the adjacency theorem. -/
def dbAdjacent : DB :=
  { candlesticks :=
      [plainRow "binance" "BTCUSDT" "1m" 0 59999,
       plainRow "binance" "BTCUSDT" "1m" 60000 119999]
    timeframe_status := [] }

theorem C4_witness :
    (60000 : Int) - 0 = timeframe_to_interval "1m" :=
  C4_fill_gaps_adjacent dbAdjacent "binance" "BTCUSDT" "1m" 0 60000
    (by
      intro x hx y hy hxy hnb
      have hK : keyOpenTimesIn dbAdjacent "binance" "BTCUSDT" "1m" 0 60000
          = [0, 60000] := by decide
      rw [hK] at hx hy
      simp only [List.mem_cons, List.not_mem_nil, or_false] at hx hy
      rcases hx with rfl | rfl <;> rcases hy with rfl | rfl
      · exact absurd hxy (lt_irrefl _)
      · exact ⟨0, by decide, by decide⟩
      · exact absurd hxy (by norm_num)
      · exact absurd hxy (lt_irrefl _))
    0 (by decide) 60000 (by decide) (by decide) (by decide)

/-- The misaligned 1m store (open_times 0 and 150000). -/
def dbGapStore : DB :=
  { candlesticks :=
      [plainRow "binance" "ETHUSDT" "1m" 0 59999,
       plainRow "binance" "ETHUSDT" "1m" 150000 209999]
    timeframe_status := [] }

/-- C4 (counterexample). On the misaligned 1m store with open_times 0 and
150000, `fill_gaps_in_range` over `[0, 150000]` leaves the stored
open_times `{0, 150000, 75000}`: the candles at 0 and 75000 are
temporally adjacent afterwards yet differ by 75000, not by one interval
(60000) — the claim fails as stated. -/
theorem C4_counterexample :
    (0 : Int) ∈ keyOpenTimesIn
        (fill_gaps_in_range dbGapStore "binance" "ETHUSDT" "1m" 0 150000).1
        "binance" "ETHUSDT" "1m" 0 150000
    ∧ (75000 : Int) ∈ keyOpenTimesIn
        (fill_gaps_in_range dbGapStore "binance" "ETHUSDT" "1m" 0 150000).1
        "binance" "ETHUSDT" "1m" 0 150000
    ∧ (∀ z ∈ keyOpenTimesIn
        (fill_gaps_in_range dbGapStore "binance" "ETHUSDT" "1m" 0 150000).1
        "binance" "ETHUSDT" "1m" 0 150000, ¬ ((0 : Int) < z ∧ z < 75000))
    ∧ ¬ ((75000 : Int) - 0 = timeframe_to_interval "1m") := by
  have hfetch : fetch_candles_in_range dbGapStore "binance" "ETHUSDT" "1m" 0 150000
      = [cGapA, cGapB] := by decide
  have hrows : gapRowsAll (timeframe_to_interval "1m")
      (fetch_candles_in_range dbGapStore "binance" "ETHUSDT" "1m" 0 150000)
      = [cGapMid] := by
    rw [hfetch]
    show gapRowsFor 60000 cGapA cGapB ++ gapRowsAll 60000 [cGapB] = [cGapMid]
    rw [gapRowsFor_cGap]
    rfl
  have hfill : (fill_gaps_in_range dbGapStore "binance" "ETHUSDT" "1m" 0 150000).1
      = { candlesticks := dbGapStore.candlesticks
            ++ [candleToRow "binance" "ETHUSDT" "1m" true cGapMid]
          timeframe_status := [] } := by
    show (if (fetch_candles_in_range dbGapStore "binance" "ETHUSDT" "1m" 0 150000).length < 2
        then (dbGapStore, 0)
        else insertInterpolated "binance" "ETHUSDT" "1m" dbGapStore
          (gapRowsAll (timeframe_to_interval "1m")
            (fetch_candles_in_range dbGapStore "binance" "ETHUSDT" "1m" 0 150000))).1
      = { candlesticks := dbGapStore.candlesticks
            ++ [candleToRow "binance" "ETHUSDT" "1m" true cGapMid]
          timeframe_status := [] }
    rw [if_neg (by rw [hfetch]; decide), hrows]
    decide
  rw [hfill]
  refine ⟨by decide, by decide, by decide, by decide⟩

theorem ledger_read_update (db : DB) (p s tf : String) (o n : Int) :
    ledger_read (update_progress db p s tf o n) p s tf = some o := by
  unfold ledger_read update_progress
  have hnone : (db.timeframe_status.filter (fun r => !(r.keyMatch p s tf))).find?
      (fun r => r.keyMatch p s tf) = none := by
    rw [List.find?_eq_none]
    intro r hr
    have hmem := List.mem_filter.mp hr
    simp only [Bool.not_eq_true'] at hmem
    simp [hmem.2]
  simp only [List.find?_append, hnone, Option.none_or]
  rw [List.find?_cons_of_pos _ (by simp [StatusRow.keyMatch])]

theorem fill_gaps_status (db : DB) (p s tf : String) (a b : Int) :
    (fill_gaps_in_range db p s tf a b).1.timeframe_status = db.timeframe_status := by
  unfold fill_gaps_in_range
  by_cases h : (fetch_candles_in_range db p s tf a b).length < 2
  · rw [if_pos h]
  · rw [if_neg h]
    exact (insertInterpolated_decomp p s tf
      (gapRowsAll (timeframe_to_interval tf) (fetch_candles_in_range db p s tf a b)) db).2

theorem foldl_min_le_init (l : List KlineSummary) :
    ∀ m : Int, l.foldl (fun m k => min m k.open_time) m ≤ m := by
  induction l with
  | nil => intro m; exact le_refl m
  | cons k ks ih =>
    intro m
    exact le_trans (ih (min m k.open_time)) (min_le_left m k.open_time)

/-- Modelled from the spec: `CandleRetriever::fetch_one_batch` is called
by backfill.rs and web_server.rs (`retriever.fetch_one_batch()`) but is
not defined anywhere under src/ — only its callers are. This definition
follows spec §4.F ("Backward fetcher") step by step: (1) `end_time` is
the ledger cursor when present, else `now`; (2) fetch one batch ending at
`end_time` from the exchange; (3) discard any candle with
`close_time ≥ now`; (4) empty after filtering → `(0, exhausted = true)`;
(5) `oldest`/`newest` are the min/max open_times of the batch;
(6) atomic `insert_batch`; (7) `ledger.update(key, oldest)`;
(8) gap fill on `[oldest, newest]`; (9) `exhausted = (inserted == 0) ∨
(floor_ms set ∧ oldest ≤ floor_ms)`. -/
def batchOldest (k0 : KlineSummary) (rest : List KlineSummary) : Int :=
  (k0 :: rest).foldl (fun m k => min m k.open_time) k0.open_time

def batchNewest (k0 : KlineSummary) (rest : List KlineSummary) : Int :=
  (k0 :: rest).foldl (fun m k => max m k.open_time) k0.open_time

/-- Steps 4-10 of §4.F, applied to the already-filtered batch. -/
def fetch_one_batch_core (db : DB) (p s tf : String) (floor_ms : Option Int)
    (now : Int) : List KlineSummary → DB × Int × Bool
  | [] => (db, 0, true)
  | k0 :: rest =>
    let oldest := batchOldest k0 rest
    let newest := batchNewest k0 rest
    let ib := insert_batch p s tf db.candlesticks (k0 :: rest)
    let db1 : DB := { db with candlesticks := ib.1 }
    let db2 := update_progress db1 p s tf oldest now
    let fill := fill_gaps_in_range db2 p s tf oldest newest
    let exhausted := (ib.2 == 0) ||
      ((floor_ms.map (fun f => decide (oldest ≤ f))).getD false)
    (fill.1, ib.2, exhausted)

def fetch_one_batch (db : DB) (p s tf : String) (floor_ms : Option Int)
    (now : Int) (exchange : Int → List KlineSummary) : DB × Int × Bool :=
  fetch_one_batch_core db p s tf floor_ms now
    ((exchange ((ledger_read db p s tf).getD now)).filter
      (fun k => decide (k.close_time < now)))

/-- C3. In the one-batch backfill fetch, every candle whose `close_time`
is ≥ `now` is discarded before insertion: any row present afterwards was
already stored, is a synthetic (gap-fill) row, or is a fetched candle
with `close_time < now` — an in-progress candle is never persisted by
this path. -/
theorem C3_backfill_discards_in_progress (db : DB) (p s tf : String)
    (floor_ms : Option Int) (now : Int) (exchange : Int → List KlineSummary) :
    ∀ r ∈ (fetch_one_batch db p s tf floor_ms now exchange).1.candlesticks,
      r ∈ db.candlesticks ∨ r.interpolated = true ∨ r.close_time < now := by
  intro r hr
  unfold fetch_one_batch at hr
  cases hfil : (exchange ((ledger_read db p s tf).getD now)).filter
      (fun k => decide (k.close_time < now)) with
  | nil =>
    rw [hfil] at hr
    exact Or.inl hr
  | cons k0 rest =>
    rw [hfil] at hr
    have hr' : r ∈ (fill_gaps_in_range
        (update_progress
          { db with candlesticks := (insert_batch p s tf db.candlesticks (k0 :: rest)).1 }
          p s tf (batchOldest k0 rest) now)
        p s tf (batchOldest k0 rest) (batchNewest k0 rest)).1.candlesticks := hr
    rcases fill_gaps_new_rows_interpolated _ p s tf _ _ r hr' with h1 | h2
    · -- the row predates the gap fill: it is in the inserted store
      obtain ⟨extra, hex, hexmem⟩ := insert_batch_append p s tf (k0 :: rest) db.candlesticks
      have h1' : r ∈ (insert_batch p s tf db.candlesticks (k0 :: rest)).1 := h1
      rw [hex] at h1'
      rcases List.mem_append.mp h1' with hl | hr2
      · exact Or.inl hl
      · obtain ⟨k, hk, rfl⟩ := hexmem r hr2
        have hkf : k ∈ (exchange ((ledger_read db p s tf).getD now)).filter
            (fun k => decide (k.close_time < now)) := by
          rw [hfil]
          exact hk
        have hkc := (List.mem_filter.mp hkf).2
        simp only [decide_eq_true_eq] at hkc
        exact Or.inr (Or.inr hkc)
    · exact Or.inr (Or.inl h2)

/-- C6. The one-batch backfill fetch is monotone on the progress cursor:
when the ledger already holds a value `v` and the exchange honours its
contract (spec §4.E: returned candles have `open_time ≤` the requested
end time), any value the call leaves in the ledger is ≤ `v` — successive
calls never move `oldest_candle_time` forward. -/
theorem C6_fetch_one_batch_monotone (db : DB) (p s tf : String)
    (floor_ms : Option Int) (now : Int) (exchange : Int → List KlineSummary)
    (v : Int) (hv : ledger_read db p s tf = some v)
    (hapi : ∀ k ∈ exchange ((ledger_read db p s tf).getD now),
      k.open_time ≤ (ledger_read db p s tf).getD now) :
    ∀ v', ledger_read (fetch_one_batch db p s tf floor_ms now exchange).1 p s tf = some v'
      → v' ≤ v := by
  intro v' hv'
  unfold fetch_one_batch at hv'
  cases hfil : (exchange ((ledger_read db p s tf).getD now)).filter
      (fun k => decide (k.close_time < now)) with
  | nil =>
    rw [hfil] at hv'
    have hsame : ledger_read db p s tf = some v' := hv'
    rw [hv] at hsame
    injection hsame with hsame
    omega
  | cons k0 rest =>
    rw [hfil] at hv'
    have hv'' : ledger_read (fill_gaps_in_range
        (update_progress
          { db with candlesticks := (insert_batch p s tf db.candlesticks (k0 :: rest)).1 }
          p s tf (batchOldest k0 rest) now)
        p s tf (batchOldest k0 rest) (batchNewest k0 rest)).1 p s tf = some v' := hv'
    have hlr : ledger_read (fill_gaps_in_range
        (update_progress
          { db with candlesticks := (insert_batch p s tf db.candlesticks (k0 :: rest)).1 }
          p s tf (batchOldest k0 rest) now)
        p s tf (batchOldest k0 rest) (batchNewest k0 rest)).1 p s tf
        = ledger_read (update_progress
          { db with candlesticks := (insert_batch p s tf db.candlesticks (k0 :: rest)).1 }
          p s tf (batchOldest k0 rest) now) p s tf := by
      unfold ledger_read
      rw [fill_gaps_status]
    rw [hlr, ledger_read_update] at hv''
    injection hv'' with hv''
    subst hv''
    have hk0 : k0 ∈ (exchange ((ledger_read db p s tf).getD now)).filter
        (fun k => decide (k.close_time < now)) := by
      rw [hfil]
      exact List.mem_cons_self k0 rest
    have hk0le : k0.open_time ≤ (ledger_read db p s tf).getD now :=
      hapi k0 (List.mem_filter.mp hk0).1
    have hgetD : (ledger_read db p s tf).getD now = v := by
      rw [hv]
      rfl
    calc batchOldest k0 rest
        ≤ k0.open_time := by
          unfold batchOldest
          have hfold := foldl_min_le_init rest (min k0.open_time k0.open_time)
          simp only [List.foldl_cons]
          simpa using hfold
      _ ≤ v := hgetD ▸ hk0le

/-- A batch respecting the exchange contract against `dbResume`'s cursor
(the cursor reads 100, the batch's one candle opens at 50). -/
def exchMono : Int → List KlineSummary :=
  fun _ => [{ open_time := 50, open_ := 0, high := 0, low := 0, close := 0
              volume := 0, close_time := 120, quote_asset_volume := 0
              number_of_trades := 0, taker_buy_base_asset_volume := 0
              taker_buy_quote_asset_volume := 0 }]

theorem C6_witness : (50 : Int) ≤ 100 :=
  C6_fetch_one_batch_monotone dbResume "binance" "BTCUSDT" "1h" none 500 exchMono
    100 (by decide) (by decide) 50 (by decide)

/-- A batch holding one closed candle (close 999 < now = 1000) and one
in-progress candle (close 4599 ≥ now). -/
def kPastC3 : KlineSummary :=
  { open_time := 0, open_ := 0, high := 0, low := 0, close := 0, volume := 0
    close_time := 999, quote_asset_volume := 0, number_of_trades := 0
    taker_buy_base_asset_volume := 0, taker_buy_quote_asset_volume := 0 }

def kOpenC3 : KlineSummary :=
  { open_time := 1000, open_ := 0, high := 0, low := 0, close := 0, volume := 0
    close_time := 4599, quote_asset_volume := 0, number_of_trades := 0
    taker_buy_base_asset_volume := 0, taker_buy_quote_asset_volume := 0 }

def dbEmptyStore : DB := { candlesticks := [], timeframe_status := [] }

def exchC3 : Int → List KlineSummary := fun _ => [kPastC3, kOpenC3]

theorem C3_witness :
    mkBackfillRow "binance" "BTCUSDT" "1h" kPastC3 ∈ dbEmptyStore.candlesticks
    ∨ (mkBackfillRow "binance" "BTCUSDT" "1h" kPastC3).interpolated = true
    ∨ (mkBackfillRow "binance" "BTCUSDT" "1h" kPastC3).close_time < 1000 :=
  C3_backfill_discards_in_progress dbEmptyStore "binance" "BTCUSDT" "1h" none 1000 exchC3
    (mkBackfillRow "binance" "BTCUSDT" "1h" kPastC3) (by decide)

theorem C1_witness :
    (100 : Int) ≤ determine_start_point dbResume "binance" "BTCUSDT" "1h" 999999 :=
  (C1_determine_start_point_is_max dbResume "binance" "BTCUSDT" "1h" 999999).2.1
    (plainRow "binance" "BTCUSDT" "1h" 100 3699999) (by decide) (by decide)

theorem C5_witness :
    ((gapRowsFor 60000 cGapA cGapB).length : Int)
      = (cGapB.open_time - cGapA.open_time).tdiv 60000 - 1 :=
  (C5_interpolator_emission 60000 cGapA cGapB (by norm_num)
    (by norm_num [cGapA, cGapB])).1

/-- The web server's `Candle` response shape (web_server.rs): `time` in
epoch seconds (`open_time / 1000`). -/
structure WCandle where
  time : Int
  open_ : ℚ
  high : ℚ
  low : ℚ
  close : ℚ
  volume : ℚ
deriving Repr, DecidableEq

/-- `parse_timeframe_seconds` (web_server.rs): strip an `m`/`h`/`d`
suffix, parse the numeric prefix (`unwrap_or(0)`), multiply by the unit;
anything else is 0. -/
def parse_timeframe_seconds (tf : String) : Int :=
  let cs := tf.toList
  let num : Int := ((digitsToNat cs.dropLast none).map Int.ofNat).getD 0
  match cs.getLast? with
  | some 'm' => num * 60
  | some 'h' => num * 3600
  | some 'd' => num * 86400
  | _ => 0

/-- The fixed candidate list of `find_smaller_timeframe` (web_server.rs);
note it omits the `1m`, `3m`, `1w` and `1M` tags. -/
def wsCandidateTimeframes : List String :=
  ["5m", "15m", "30m", "1h", "2h", "4h", "6h", "8h", "12h", "1d", "3d"]

/-- `SELECT COUNT(*) FROM candlesticks WHERE provider = 'binance' AND
symbol = ?1 AND timeframe = ?2`. -/
def countRows (db : DB) (symbol tf : String) : Nat :=
  (db.candlesticks.filter (fun r => r.keyMatch "binance" symbol tf)).length

/-- `find_smaller_timeframe` (web_server.rs): walk the candidate list
from the largest down, returning the first candidate strictly smaller
than the target (by parsed seconds) that has stored rows. -/
def find_smaller_timeframe (db : DB) (symbol target_tf : String) : Option String :=
  wsCandidateTimeframes.reverse.find?
    (fun tf => decide (parse_timeframe_seconds tf < parse_timeframe_seconds target_tf)
      && decide (0 < countRows db symbol tf))

/-- `ORDER BY open_time ASC` on rows. -/
def rowLE (x y : Row) : Prop := x.open_time ≤ y.open_time

instance : DecidableRel rowLE := fun x y => Int.decLe x.open_time y.open_time

instance : IsTotal Row rowLE := ⟨fun x y => le_total x.open_time y.open_time⟩

instance : IsTrans Row rowLE := ⟨fun _ _ _ h1 h2 => le_trans h1 h2⟩

/-- The source query of `resample_candles` (web_server.rs): the key's
rows, optionally bounded by `start * 1000` / `end * 1000`, ordered by
`open_time` ascending, `LIMIT 50000`, each converted to seconds. -/
def resample_fetch (db : DB) (symbol source_tf : String)
    (start stop : Option Int) : List WCandle :=
  let rows := db.candlesticks.filter
    (fun r => r.keyMatch "binance" symbol source_tf
      && (match start with | some v => decide (v * 1000 ≤ r.open_time) | none => true)
      && (match stop with | some v => decide (r.open_time ≤ v * 1000) | none => true))
  ((List.insertionSort rowLE rows).take 50000).map
    (fun r => { time := r.open_time.tdiv 1000, open_ := r.open_, high := r.high
                low := r.low, close := r.close, volume := r.volume })

/-- `(candle.time / target_seconds) * target_seconds`. -/
def bucketStart (tsec t : Int) : Int := (t.tdiv tsec) * tsec

/-- `aggregate_candles` (web_server.rs). The source folds `high` from
`f64::NEG_INFINITY` and `low` from `f64::INFINITY`; on the nonempty
groups the callers pass, that equals folding from the first element's
value, which is how the infinities are represented here. The `[]` case
is unreachable (`first().unwrap()` would panic). -/
def aggregate_candles : List WCandle → Int → WCandle
  | [], period_start =>
    { time := period_start, open_ := 0, high := 0, low := 0, close := 0, volume := 0 }
  | c :: rest, period_start =>
    { time := period_start
      open_ := c.open_
      high := rest.foldl (fun m x => max m x.high) c.high
      low := rest.foldl (fun m x => min m x.low) c.low
      close := ((c :: rest).getLast (List.cons_ne_nil c rest)).close
      volume := (c :: rest).foldl (fun v x => v + x.volume) 0 }

/-- The grouping loop of `resample_candles` (web_server.rs): consecutive
candles sharing a bucket start accumulate in `current_group`; on a
bucket change the finished group is aggregated and a new group starts. -/
def resampleLoop (tsec : Int) : List WCandle → List WCandle → Int → List WCandle
  | [], current_group, current_period_start =>
    if current_group.isEmpty then []
    else [aggregate_candles current_group current_period_start]
  | c :: rest, current_group, current_period_start =>
    let period_start := bucketStart tsec c.time
    if period_start ≠ current_period_start then
      (if current_group.isEmpty then []
       else [aggregate_candles current_group current_period_start])
        ++ resampleLoop tsec rest [c] period_start
    else
      resampleLoop tsec rest (current_group ++ [c]) current_period_start

/-- `resample_candles` (web_server.rs): group the fetched source candles
into target-timeframe buckets, aggregate each group, truncate to
`limit`. -/
def resample_candles (db : DB) (symbol source_tf target_tf : String)
    (start stop : Option Int) (limit : Nat) : List WCandle :=
  let source_candles := resample_fetch db symbol source_tf start stop
  match source_candles with
  | [] => []
  | c0 :: _ =>
    let target_seconds := parse_timeframe_seconds target_tf
    (resampleLoop target_seconds source_candles []
      (bucketStart target_seconds c0.time)).take limit

/-- The paged candle query of `GET /api/candles` (web_server.rs):
window + `ORDER BY open_time ASC LIMIT ?n OFFSET ?m`, times converted to
seconds. -/
def get_candles_rows (db : DB) (symbol timeframe : String)
    (start stop : Option Int) (limit offset : Nat) : List WCandle :=
  let rows := db.candlesticks.filter
    (fun r => r.keyMatch "binance" symbol timeframe
      && (match start with | some v => decide (v * 1000 ≤ r.open_time) | none => true)
      && (match stop with | some v => decide (r.open_time ≤ v * 1000) | none => true))
  (((List.insertionSort rowLE rows).drop offset).take limit).map
    (fun r => { time := r.open_time.tdiv 1000, open_ := r.open_, high := r.high
                low := r.low, close := r.close, volume := r.volume })

/-- The fallback branch of `GET /api/candles` (web_server.rs): if the
paged query is empty, try `find_smaller_timeframe` and resample. -/
def get_candles_response (db : DB) (symbol timeframe : String)
    (start stop : Option Int) (limit offset : Nat) : List WCandle :=
  let candles := get_candles_rows db symbol timeframe start stop limit offset
  if candles.isEmpty then
    match find_smaller_timeframe db symbol timeframe with
    | some smaller_tf =>
      resample_candles db symbol smaller_tf timeframe start stop limit
    | none => candles
  else candles

/-- The run partition the grouping loop walks: the list of
(group, bucket start) pairs, in order. -/
def bucketRunsFrom (tsec : Int) : List WCandle → List WCandle → Int → List (List WCandle × Int)
  | [], group, cps => if group.isEmpty then [] else [(group, cps)]
  | c :: rest, group, cps =>
    let ps := bucketStart tsec c.time
    if ps ≠ cps then
      (if group.isEmpty then [] else [(group, cps)]) ++ bucketRunsFrom tsec rest [c] ps
    else bucketRunsFrom tsec rest (group ++ [c]) cps

/-- The loop is exactly "aggregate every run of the partition". -/
theorem resampleLoop_eq_runs (tsec : Int) :
    ∀ (src group : List WCandle) (cps : Int),
      resampleLoop tsec src group cps
        = (bucketRunsFrom tsec src group cps).map
            (fun gp => aggregate_candles gp.1 gp.2) := by
  intro src
  induction src with
  | nil =>
    intro group cps
    by_cases h : group.isEmpty <;> simp [resampleLoop, bucketRunsFrom, h]
  | cons c rest ih =>
    intro group cps
    simp only [resampleLoop, bucketRunsFrom]
    by_cases h : bucketStart tsec c.time ≠ cps
    · rw [if_pos h, if_pos h, List.map_append, ih]
      by_cases hg : group.isEmpty <;> simp [hg]
    · rw [if_neg h, if_neg h, ih]

/-- The runs tile the input: their concatenation is the pending group
followed by the remaining source. -/
theorem bucketRunsFrom_join (tsec : Int) :
    ∀ (src group : List WCandle) (cps : Int),
      ((bucketRunsFrom tsec src group cps).map Prod.fst).flatten = group ++ src := by
  intro src
  induction src with
  | nil =>
    intro group cps
    by_cases h : group.isEmpty
    · have : group = [] := List.isEmpty_iff.mp h
      simp [bucketRunsFrom, h, this]
    · simp [bucketRunsFrom, h]
  | cons c rest ih =>
    intro group cps
    simp only [bucketRunsFrom]
    by_cases h : bucketStart tsec c.time ≠ cps
    · rw [if_pos h]
      by_cases hg : group.isEmpty
      · have hge : group = [] := List.isEmpty_iff.mp hg
        simp [hg, hge, ih]
      · simp only [hg, if_neg (by simp : ¬ (false = true))]
        rw [List.map_append, List.flatten_append, ih]
        simp
    · rw [if_neg h, ih]
      simp

/-- Every run is nonempty, all its members share its bucket start, given
that the pending group's members share `cps`. -/
theorem bucketRunsFrom_groups (tsec : Int) :
    ∀ (src group : List WCandle) (cps : Int),
      (∀ x ∈ group, bucketStart tsec x.time = cps) →
      ∀ gp ∈ bucketRunsFrom tsec src group cps,
        gp.1 ≠ [] ∧ ∀ x ∈ gp.1, bucketStart tsec x.time = gp.2 := by
  intro src
  induction src with
  | nil =>
    intro group cps hinv gp hgp
    by_cases h : group.isEmpty
    · simp [bucketRunsFrom, h] at hgp
    · simp only [bucketRunsFrom, h, if_neg (by simp : ¬ (false = true)),
        List.mem_singleton] at hgp
      subst hgp
      exact ⟨fun he => h (by
        have he' : group = [] := he
        rw [he']
        rfl), hinv⟩
  | cons c rest ih =>
    intro group cps hinv gp hgp
    simp only [bucketRunsFrom] at hgp
    by_cases h : bucketStart tsec c.time ≠ cps
    · rw [if_pos h] at hgp
      rcases List.mem_append.mp hgp with h1 | h2
      · by_cases hg : group.isEmpty
        · simp [hg] at h1
        · simp only [hg, if_neg (by simp : ¬ (false = true)), List.mem_singleton] at h1
          subst h1
          exact ⟨fun he => hg (by
            have he' : group = [] := he
            rw [he']
            rfl), hinv⟩
      · exact ih [c] (bucketStart tsec c.time) (by simp) gp h2
    · rw [if_neg h] at hgp
      push_neg at h
      refine ih (group ++ [c]) cps ?_ gp hgp
      intro x hx
      rcases List.mem_append.mp hx with hx1 | hx2
      · exact hinv x hx1
      · rw [List.mem_singleton.mp hx2, h]

theorem bucketStart_mono {tsec t1 t2 : Int} (hsec : 0 < tsec)
    (h1 : 0 ≤ t1) (hle : t1 ≤ t2) :
    bucketStart tsec t1 ≤ bucketStart tsec t2 := by
  unfold bucketStart
  rw [Int.tdiv_eq_ediv h1 (le_of_lt hsec),
    Int.tdiv_eq_ediv (le_trans h1 hle) (le_of_lt hsec)]
  exact mul_le_mul_of_nonneg_right (Int.ediv_le_ediv hsec hle) (le_of_lt hsec)

/-- The buckets of successive runs strictly increase along a sorted,
nonnegative source. -/
theorem bucketRunsFrom_chain (tsec : Int) (hsec : 0 < tsec) :
    ∀ (src group : List WCandle) (cps : Int),
      (∀ x ∈ group ++ src, 0 ≤ x.time) →
      List.Chain' (fun a b : WCandle => a.time ≤ b.time) (group ++ src) →
      (∀ x ∈ group, bucketStart tsec x.time = cps) →
      List.Chain' (fun gp gp' : List WCandle × Int => gp.2 < gp'.2)
        (bucketRunsFrom tsec src group cps)
      ∧ (group ≠ [] → ∀ gp ∈ bucketRunsFrom tsec src group cps, cps ≤ gp.2) := by
  intro src
  induction src with
  | nil =>
    intro group cps hnn hch hinv
    constructor
    · by_cases h : group.isEmpty
      · simp [bucketRunsFrom, h]
      · simp only [bucketRunsFrom, h, if_neg (by simp : ¬ (false = true))]
        exact List.chain'_singleton _
    · intro hg gp hgp
      have h : ¬ group.isEmpty = true := fun he => hg (List.isEmpty_iff.mp he)
      simp only [bucketRunsFrom, if_neg h, List.mem_singleton] at hgp
      subst hgp
      exact le_refl cps
  | cons c rest ih =>
    intro group cps hnn hch hinv
    simp only [bucketRunsFrom]
    have hch2 : List.Chain' (fun a b : WCandle => a.time ≤ b.time) (c :: rest) :=
      (List.chain'_append.mp hch).2.1
    have hch3 : List.Chain' (fun a b : WCandle => a.time ≤ b.time) ([c] ++ rest) := by
      simpa using hch2
    have hnn3 : ∀ x ∈ [c] ++ rest, 0 ≤ x.time := by
      intro x hx
      exact hnn x (List.mem_append_right group (by simpa using hx))
    by_cases h : bucketStart tsec c.time ≠ cps
    · rw [if_pos h]
      obtain ⟨ihchain, ihbound⟩ := ih [c] (bucketStart tsec c.time) hnn3 hch3 (by simp)
      have hboundc : ∀ gp ∈ bucketRunsFrom tsec rest [c] (bucketStart tsec c.time),
          bucketStart tsec c.time ≤ gp.2 :=
        ihbound (by simp)
      by_cases hg : group.isEmpty
      · simp only [hg, if_pos rfl, List.nil_append]
        refine ⟨ihchain, ?_⟩
        intro hgne _ _
        exact absurd (List.isEmpty_iff.mp hg) hgne
      · -- the closed group's bucket cps is strictly below the new bucket
        have hgne : group ≠ [] := fun he => hg (by simp [he])
        obtain ⟨gl, hgl⟩ : ∃ gl, group.getLast? = some gl := by
          cases hG : group with
          | nil => exact absurd hG hgne
          | cons a as => exact ⟨(a :: as).getLast (by simp), List.getLast?_eq_getLast _ _⟩
        have hglmem : gl ∈ group := List.mem_of_mem_getLast? hgl
        have hjunction : gl.time ≤ c.time := by
          have := (List.chain'_append.mp hch).2.2
          exact this gl hgl c rfl
        have hcps : cps ≤ bucketStart tsec c.time := by
          rw [← hinv gl hglmem]
          exact bucketStart_mono hsec (hnn gl (List.mem_append_left _ hglmem)) hjunction
        have hcpslt : cps < bucketStart tsec c.time := lt_of_le_of_ne hcps (Ne.symm h)
        simp only [hg, if_neg (by simp : ¬ (false = true)), List.singleton_append]
        constructor
        · rw [List.chain'_cons']
          refine ⟨?_, ihchain⟩
          intro gp hgp
          have : gp ∈ bucketRunsFrom tsec rest [c] (bucketStart tsec c.time) :=
            List.mem_of_mem_head? hgp
          exact lt_of_lt_of_le hcpslt (hboundc gp this)
        · intro _ gp hgp
          rcases List.mem_cons.mp hgp with h1 | h2
          · rw [h1]
          · exact le_trans (le_of_lt hcpslt) (hboundc gp h2)
    · rw [if_neg h]
      push_neg at h
      have hinv2 : ∀ x ∈ group ++ [c], bucketStart tsec x.time = cps := by
        intro x hx
        rcases List.mem_append.mp hx with hx1 | hx2
        · exact hinv x hx1
        · rw [List.mem_singleton.mp hx2, h]
      have hre : (group ++ [c]) ++ rest = group ++ (c :: rest) := by
        rw [List.append_assoc]
        rfl
      obtain ⟨ihchain, ihbound⟩ := ih (group ++ [c]) cps
        (by rw [hre]; exact hnn) (by rw [hre]; exact hch) hinv2
      refine ⟨ihchain, ?_⟩
      intro _ gp hgp
      exact ihbound (by simp) gp hgp

theorem foldl_qmax_ub (f : WCandle → ℚ) :
    ∀ (l : List WCandle) (m : ℚ),
      m ≤ l.foldl (fun acc x => max acc (f x)) m
      ∧ ∀ x ∈ l, f x ≤ l.foldl (fun acc x => max acc (f x)) m := by
  intro l
  induction l with
  | nil => intro m; exact ⟨le_refl m, fun x hx => absurd hx (List.not_mem_nil x)⟩
  | cons c cs ih =>
    intro m
    obtain ⟨ih1, ih2⟩ := ih (max m (f c))
    refine ⟨le_trans (le_max_left m (f c)) ih1, ?_⟩
    intro x hx
    rcases List.mem_cons.mp hx with hx1 | hx2
    · rw [hx1]; exact le_trans (le_max_right m (f c)) ih1
    · exact ih2 x hx2

theorem foldl_qmax_mem (f : WCandle → ℚ) :
    ∀ (l : List WCandle) (m : ℚ),
      l.foldl (fun acc x => max acc (f x)) m = m
      ∨ ∃ x ∈ l, l.foldl (fun acc x => max acc (f x)) m = f x := by
  intro l
  induction l with
  | nil => intro m; exact Or.inl rfl
  | cons c cs ih =>
    intro m
    rcases ih (max m (f c)) with h1 | ⟨x, hx, hx2⟩
    · rcases max_choice m (f c) with hm | hm
      · exact Or.inl (by rw [List.foldl_cons, h1, hm])
      · exact Or.inr ⟨c, List.mem_cons_self c cs, by rw [List.foldl_cons, h1, hm]⟩
    · exact Or.inr ⟨x, List.mem_cons_of_mem c hx, hx2⟩

theorem foldl_qmin_lb (f : WCandle → ℚ) :
    ∀ (l : List WCandle) (m : ℚ),
      l.foldl (fun acc x => min acc (f x)) m ≤ m
      ∧ ∀ x ∈ l, l.foldl (fun acc x => min acc (f x)) m ≤ f x := by
  intro l
  induction l with
  | nil => intro m; exact ⟨le_refl m, fun x hx => absurd hx (List.not_mem_nil x)⟩
  | cons c cs ih =>
    intro m
    obtain ⟨ih1, ih2⟩ := ih (min m (f c))
    refine ⟨le_trans ih1 (min_le_left m (f c)), ?_⟩
    intro x hx
    rcases List.mem_cons.mp hx with hx1 | hx2
    · rw [hx1]; exact le_trans ih1 (min_le_right m (f c))
    · exact ih2 x hx2

theorem foldl_qmin_mem (f : WCandle → ℚ) :
    ∀ (l : List WCandle) (m : ℚ),
      l.foldl (fun acc x => min acc (f x)) m = m
      ∨ ∃ x ∈ l, l.foldl (fun acc x => min acc (f x)) m = f x := by
  intro l
  induction l with
  | nil => intro m; exact Or.inl rfl
  | cons c cs ih =>
    intro m
    rcases ih (min m (f c)) with h1 | ⟨x, hx, hx2⟩
    · rcases min_choice m (f c) with hm | hm
      · exact Or.inl (by rw [List.foldl_cons, h1, hm])
      · exact Or.inr ⟨c, List.mem_cons_self c cs, by rw [List.foldl_cons, h1, hm]⟩
    · exact Or.inr ⟨x, List.mem_cons_of_mem c hx, hx2⟩

theorem foldl_add_volume :
    ∀ (l : List WCandle) (v : ℚ),
      l.foldl (fun acc x => acc + x.volume) v = v + (l.map WCandle.volume).sum := by
  intro l
  induction l with
  | nil => intro v; simp
  | cons c cs ih =>
    intro v
    rw [List.foldl_cons, ih]
    simp [add_assoc]

/-- `find?` over the reverse of a sorted list returns a maximal
satisfying element. -/
theorem find?_reverse_max (key : String → Int) (pred : String → Bool) :
    ∀ (l : List String), List.Pairwise (fun u v => key u ≤ key v) l →
      ∀ x, l.reverse.find? pred = some x →
        pred x = true ∧ x ∈ l ∧ ∀ y ∈ l, pred y = true → key y ≤ key x := by
  intro l
  induction l using List.reverseRecOn with
  | nil => intro _ x hx; cases hx
  | append_singleton l' z ih =>
    intro hpw x hx
    have hpw' : List.Pairwise (fun u v => key u ≤ key v) l' :=
      (List.pairwise_append.mp hpw).1
    have hlast : ∀ y ∈ l', key y ≤ key z := by
      intro y hy
      exact (List.pairwise_append.mp hpw).2.2 y hy z (by simp)
    rw [List.reverse_append] at hx
    simp only [List.reverse_singleton, List.singleton_append] at hx
    by_cases hz : pred z = true
    · rw [List.find?_cons_of_pos _ hz] at hx
      injection hx with hx
      subst hx
      refine ⟨hz, by simp, ?_⟩
      intro y hy _
      rcases List.mem_append.mp hy with h1 | h2
      · exact hlast y h1
      · rw [List.mem_singleton.mp h2]
    · rw [List.find?_cons_of_neg _ hz] at hx
      obtain ⟨hpx, hxmem, hbound⟩ := ih hpw' x hx
      refine ⟨hpx, List.mem_append_left _ hxmem, ?_⟩
      intro y hy hpy
      rcases List.mem_append.mp hy with h1 | h2
      · exact hbound y h1 hpy
      · rw [List.mem_singleton.mp h2] at hpy
        exact absurd hpy hz

/-- C9 (amended). When the paged read for the requested timeframe is
empty, the response falls back to resampling from the timeframe chosen by
`find_smaller_timeframe` — the **largest entry of the fixed candidate
list** (which omits 1m/3m/1w/1M) that is strictly smaller than the
target by parsed seconds and has stored rows, not the largest smaller
stored timeframe in general. The resampler partitions the scanned
source into maximal consecutive runs sharing
`bucket_start = (t / target_seconds) * target_seconds`, aggregates each
run (open = first, close = last, high = max, low = min, volume = sum,
time = bucket start) and truncates to the limit; on a time-sorted,
nonnegative source the run buckets strictly increase, so each bucket
appears exactly once. -/
theorem C9_downsampling_fallback (db : DB) (symbol target_tf : String)
    (start stop : Option Int) (limit offset : Nat) :
    (get_candles_rows db symbol target_tf start stop limit offset = [] →
      ∀ tf', find_smaller_timeframe db symbol target_tf = some tf' →
        get_candles_response db symbol target_tf start stop limit offset
          = resample_candles db symbol tf' target_tf start stop limit)
    ∧ (∀ tf', find_smaller_timeframe db symbol target_tf = some tf' →
        tf' ∈ wsCandidateTimeframes
        ∧ parse_timeframe_seconds tf' < parse_timeframe_seconds target_tf
        ∧ 0 < countRows db symbol tf'
        ∧ ∀ tf'' ∈ wsCandidateTimeframes,
            parse_timeframe_seconds tf'' < parse_timeframe_seconds target_tf →
            0 < countRows db symbol tf'' →
            parse_timeframe_seconds tf'' ≤ parse_timeframe_seconds tf')
    ∧ (∀ (source_tf : String) (c0 : WCandle) (crest : List WCandle),
        resample_fetch db symbol source_tf start stop = c0 :: crest →
        resample_candles db symbol source_tf target_tf start stop limit
          = ((bucketRunsFrom (parse_timeframe_seconds target_tf) crest [c0]
              (bucketStart (parse_timeframe_seconds target_tf) c0.time)).map
                (fun gp => aggregate_candles gp.1 gp.2)).take limit
        ∧ ((bucketRunsFrom (parse_timeframe_seconds target_tf) crest [c0]
              (bucketStart (parse_timeframe_seconds target_tf) c0.time)).map
                Prod.fst).flatten
            = c0 :: crest
        ∧ (∀ gp ∈ bucketRunsFrom (parse_timeframe_seconds target_tf) crest [c0]
              (bucketStart (parse_timeframe_seconds target_tf) c0.time),
            gp.1 ≠ [] ∧ ∀ x ∈ gp.1,
              bucketStart (parse_timeframe_seconds target_tf) x.time = gp.2)
        ∧ (0 < parse_timeframe_seconds target_tf →
            (∀ x ∈ c0 :: crest, 0 ≤ x.time) →
            List.Chain' (fun a b : WCandle => a.time ≤ b.time) (c0 :: crest) →
            List.Chain' (fun gp gp' : List WCandle × Int => gp.2 < gp'.2)
              (bucketRunsFrom (parse_timeframe_seconds target_tf) crest [c0]
                (bucketStart (parse_timeframe_seconds target_tf) c0.time))))
    ∧ (∀ (c : WCandle) (rest : List WCandle) (ps : Int),
        (aggregate_candles (c :: rest) ps).time = ps
        ∧ (aggregate_candles (c :: rest) ps).open_ = c.open_
        ∧ (aggregate_candles (c :: rest) ps).close
            = ((c :: rest).getLast (List.cons_ne_nil c rest)).close
        ∧ (∀ x ∈ c :: rest, x.high ≤ (aggregate_candles (c :: rest) ps).high)
        ∧ (∃ x ∈ c :: rest, (aggregate_candles (c :: rest) ps).high = x.high)
        ∧ (∀ x ∈ c :: rest, (aggregate_candles (c :: rest) ps).low ≤ x.low)
        ∧ (∃ x ∈ c :: rest, (aggregate_candles (c :: rest) ps).low = x.low)
        ∧ (aggregate_candles (c :: rest) ps).volume
            = ((c :: rest).map WCandle.volume).sum) := by
  refine ⟨?_, ?_, ?_, ?_⟩
  · intro hempty tf' hfind
    unfold get_candles_response
    rw [hempty, hfind]
    simp
  · intro tf' hfind
    have hsorted : List.Pairwise
        (fun u v => parse_timeframe_seconds u ≤ parse_timeframe_seconds v)
        wsCandidateTimeframes := by decide
    obtain ⟨hp, hmem, hbound⟩ := find?_reverse_max parse_timeframe_seconds
      (fun tf => decide (parse_timeframe_seconds tf < parse_timeframe_seconds target_tf)
        && decide (0 < countRows db symbol tf))
      wsCandidateTimeframes hsorted tf' hfind
    simp only [Bool.and_eq_true, decide_eq_true_eq] at hp
    refine ⟨hmem, hp.1, hp.2, ?_⟩
    intro tf'' hmem'' hlt'' hcount''
    refine hbound tf'' hmem'' ?_
    simp [hlt'', hcount'']
  · intro source_tf c0 crest hsrc
    have hstep : resampleLoop (parse_timeframe_seconds target_tf) (c0 :: crest) []
        (bucketStart (parse_timeframe_seconds target_tf) c0.time)
        = resampleLoop (parse_timeframe_seconds target_tf) crest [c0]
          (bucketStart (parse_timeframe_seconds target_tf) c0.time) := by
      simp only [resampleLoop]
      rw [if_neg (by simp)]
      rfl
    have hmain : resample_candles db symbol source_tf target_tf start stop limit
        = ((bucketRunsFrom (parse_timeframe_seconds target_tf) crest [c0]
            (bucketStart (parse_timeframe_seconds target_tf) c0.time)).map
              (fun gp => aggregate_candles gp.1 gp.2)).take limit := by
      unfold resample_candles
      rw [hsrc]
      simp only
      rw [hstep, resampleLoop_eq_runs]
    refine ⟨hmain, ?_, ?_, ?_⟩
    · rw [bucketRunsFrom_join]
      rfl
    · exact bucketRunsFrom_groups (parse_timeframe_seconds target_tf) crest [c0]
        (bucketStart (parse_timeframe_seconds target_tf) c0.time) (by simp)
    · intro h0 hnn hch
      refine (bucketRunsFrom_chain (parse_timeframe_seconds target_tf) h0 crest [c0]
        (bucketStart (parse_timeframe_seconds target_tf) c0.time) ?_ ?_ (by simp)).1
      · intro x hx
        exact hnn x (by simpa using hx)
      · simpa using hch
  · intro c rest ps
    refine ⟨rfl, rfl, rfl, ?_, ?_, ?_, ?_, ?_⟩
    · intro x hx
      rcases List.mem_cons.mp hx with hx1 | hx2
      · rw [hx1]
        exact (foldl_qmax_ub WCandle.high rest c.high).1
      · exact (foldl_qmax_ub WCandle.high rest c.high).2 x hx2
    · rcases foldl_qmax_mem WCandle.high rest c.high with h1 | ⟨x, hx, hx2⟩
      · exact ⟨c, List.mem_cons_self c rest, h1⟩
      · exact ⟨x, List.mem_cons_of_mem c hx, hx2⟩
    · intro x hx
      rcases List.mem_cons.mp hx with hx1 | hx2
      · rw [hx1]
        exact (foldl_qmin_lb WCandle.low rest c.low).1
      · exact (foldl_qmin_lb WCandle.low rest c.low).2 x hx2
    · rcases foldl_qmin_mem WCandle.low rest c.low with h1 | ⟨x, hx, hx2⟩
      · exact ⟨c, List.mem_cons_self c rest, h1⟩
      · exact ⟨x, List.mem_cons_of_mem c hx, hx2⟩
    · show (c :: rest).foldl (fun v x => v + x.volume) 0 = _
      rw [foldl_add_volume]
      exact zero_add _

/-- A store with only 5m rows, used against a 1h request. -/
def db5m : DB :=
  { candlesticks :=
      [plainRow "binance" "SOLUSDT" "5m" 0 299999,
       plainRow "binance" "SOLUSDT" "5m" 300000 599999]
    timeframe_status := [] }

theorem C9_witness :
    get_candles_response db5m "SOLUSDT" "1h" none none 2000 0
      = resample_candles db5m "SOLUSDT" "5m" "1h" none none 2000 :=
  (C9_downsampling_fallback db5m "SOLUSDT" "1h" none none 2000 0).1
    (by decide) "5m" (by decide)

/-- A store with only 3m rows: a strictly smaller stored timeframe with
data, but not in the web server's candidate list. -/
def db3m : DB :=
  { candlesticks := [plainRow "binance" "BTCUSDT" "3m" 0 179999]
    timeframe_status := [] }

/-- C9 (counterexample). With only 3m data stored and 5m requested, a
strictly smaller stored timeframe with data exists (3m, 180 s < 300 s),
yet `find_smaller_timeframe` returns `none` (its candidate list omits
3m) and the response is empty — the response is not built from the
largest smaller stored timeframe, refuting the claim as stated. -/
theorem C9_counterexample :
    find_smaller_timeframe db3m "BTCUSDT" "5m" = none
    ∧ parse_timeframe_seconds "3m" < parse_timeframe_seconds "5m"
    ∧ 0 < countRows db3m "BTCUSDT" "3m"
    ∧ get_candles_response db3m "BTCUSDT" "5m" none none 2000 0 = [] := by
  refine ⟨by decide, by decide, by decide, by decide⟩

end CandlesRetriever
